import Mathlib

/-!
Verification of the Crucible offline ray tracer.

The Rust sources are embedded shallowly.  Scalars (Rust f64) are modelled as
elements of a linear ordered field; the purely order/arithmetic parts
(intervals, axis-aligned bounding boxes, colors) are stated over the rationals,
while the parts that use square roots (sphere intersection, vector
normalisation) are stated over the reals with Real.sqrt.  Division follows the
field convention that x / 0 = 0; every theorem whose conclusion would be
sensitive to a division by zero carries a nonzero hypothesis, so no statement
relies on that artifact.  The f64 sentinel values plus/minus infinity (used
only by the EMPTY/UNIVERSE interval constants) have no finite counterpart;
EMPTY appears in the sources only as the identity seed of bounding-box folds,
which are modelled as folds over nonempty lists from their first element.
-/

namespace Crucible

/-- Scalar triple, the shared representation of points and directions
(utils.rs, struct Point3 with Vec3 as an alias). -/
structure Vec3 (α : Type) where
  x : α
  y : α
  z : α
deriving DecidableEq, Repr

variable {α : Type} [LinearOrderedField α]

/-- Componentwise addition of vectors (utils.rs, impl Add for Point3). -/
def Vec3.add (v o : Vec3 α) : Vec3 α := ⟨v.x + o.x, v.y + o.y, v.z + o.z⟩

/-- Componentwise negation (utils.rs, impl Neg for Point3). -/
def Vec3.neg (v : Vec3 α) : Vec3 α := ⟨-v.x, -v.y, -v.z⟩

/-- Vector subtraction, defined in the source as addition of the negation
(utils.rs, impl Sub for Point3). -/
def Vec3.sub (v o : Vec3 α) : Vec3 α := v.add o.neg

/-- Scalar multiplication (utils.rs, impl Mul of f64 and Point3). -/
def Vec3.smul (s : α) (v : Vec3 α) : Vec3 α := ⟨s * v.x, s * v.y, s * v.z⟩

/-- Dot product (utils.rs, Point3.dot). -/
def Vec3.dot (v o : Vec3 α) : α := v.x * o.x + v.y * o.y + v.z * o.z

/-- Squared length (utils.rs, Point3.length_squared). -/
def Vec3.lengthSquared (v : Vec3 α) : α := v.x ^ 2 + v.y ^ 2 + v.z ^ 2

/-- Reflection of a vector across a surface normal:
v - 2 (v.dot norm) norm (utils.rs, Point3.reflect). -/
def Vec3.reflect (v norm : Vec3 α) : Vec3 α :=
  v.sub (Vec3.smul (2 * v.dot norm) norm)

/-- Componentwise near-zero test with tolerance 1e-8
(utils.rs, Point3.near_zero). -/
def Vec3.nearZero (v : Vec3 α) : Prop :=
  |v.x| < 1 / 100000000 ∧ |v.y| < 1 / 100000000 ∧ |v.z| < 1 / 100000000

instance (v : Vec3 α) : Decidable v.nearZero := by
  unfold Vec3.nearZero; infer_instance

/-- A light ray: origin, direction and a time stamp
(camera/ray_casting.rs, struct Ray). -/
structure Ray (α : Type) where
  origin : Vec3 α
  direction : Vec3 α
  tm : α
deriving DecidableEq, Repr

/-- Point reached by a ray at parameter t: origin + t * direction
(camera/ray_casting.rs, Ray.at). -/
def Ray.at (r : Ray α) (t : α) : Vec3 α := r.origin.add (Vec3.smul t r.direction)

/-- A closed scalar interval given by its two endpoints
(utils.rs, struct Interval). -/
structure Interval (α : Type) where
  min : α
  max : α
deriving DecidableEq, Repr

/-- Size of an interval: max - min (utils.rs, Interval.size). -/
def Interval.size (i : Interval α) : α := i.max - i.min

/-- Inclusive membership (utils.rs, Interval.contains). -/
def Interval.contains (i : Interval α) (t : α) : Prop := i.min ≤ t ∧ t ≤ i.max

instance (i : Interval α) (t : α) : Decidable (i.contains t) := by
  unfold Interval.contains; infer_instance

/-- Strict membership (utils.rs, Interval.surrounds). -/
def Interval.surrounds (i : Interval α) (t : α) : Prop := i.min < t ∧ t < i.max

instance (i : Interval α) (t : α) : Decidable (i.surrounds t) := by
  unfold Interval.surrounds; infer_instance

/-- Smallest interval enclosing two intervals: the smaller min together with
the larger max (utils.rs, Interval.tight_enclose). -/
def Interval.tightEnclose (a b : Interval α) : Interval α :=
  ⟨if a.min ≤ b.min then a.min else b.min, if a.max ≥ b.max then a.max else b.max⟩

/-- Axis of 3-space (objects/bvh.rs, enum Axis). -/
inductive Axis : Type
| X : Axis
| Y : Axis
| Z : Axis
deriving DecidableEq, Repr

/-- Axis-aligned bounding box: one interval per axis
(objects/bvh.rs, struct Aabb). -/
structure Aabb (α : Type) where
  x : Interval α
  y : Interval α
  z : Interval α
deriving DecidableEq, Repr

/-- Selects the interval of an axis (objects/bvh.rs, Aabb.axis_interval). -/
def Aabb.axisInterval (b : Aabb α) (n : Axis) : Interval α :=
  match n with
  | Axis.X => b.x
  | Axis.Y => b.y
  | Axis.Z => b.z

/-- Box from two extremal corner points, taking the smaller coordinate as the
interval min on each axis (objects/bvh.rs, Aabb.new_from_points). -/
def Aabb.newFromPoints (a b : Vec3 α) : Aabb α :=
  ⟨if a.x ≤ b.x then ⟨a.x, b.x⟩ else ⟨b.x, a.x⟩,
   if a.y ≤ b.y then ⟨a.y, b.y⟩ else ⟨b.y, a.y⟩,
   if a.z ≤ b.z then ⟨a.z, b.z⟩ else ⟨b.z, a.z⟩⟩

/-- Box enclosing two boxes, by per-axis tight enclosure
(objects/bvh.rs, Aabb.new_from_boxes). -/
def Aabb.newFromBoxes (b0 b1 : Aabb α) : Aabb α :=
  ⟨Interval.tightEnclose b0.x b1.x,
   Interval.tightEnclose b0.y b1.y,
   Interval.tightEnclose b0.z b1.z⟩

/-- Axis selection used by the BVH builder (objects/bvh.rs, Aabb.longest_axis):
nested strict comparisons of the three interval sizes. -/
def Aabb.longestAxis (b : Aabb α) : Axis :=
  if b.x.size > b.y.size then
    (if b.x.size > b.z.size then Axis.X else Axis.Z)
  else if b.y.size > b.z.size then Axis.Y
  else Axis.Z

/-- One step of the slab test (objects/bvh.rs, the per-axis body of Aabb.hit):
intersect the running interval with the parameter range in which the ray is
between the two slab planes of one axis. -/
def slabNarrow (axmin axmax orig dir : α) (t : Interval α) : Interval α :=
  let adinv := 1 / dir
  let t0 := (axmin - orig) * adinv
  let t1 := (axmax - orig) * adinv
  if t0 < t1 then
    ⟨if t0 > t.min then t0 else t.min, if t1 < t.max then t1 else t.max⟩
  else
    ⟨if t1 > t.min then t1 else t.min, if t0 < t.max then t0 else t.max⟩

/-- Ray/box slab test (objects/bvh.rs, Aabb.hit).  The source iterates over
the axes in the order X, Y, Z, narrowing the running interval in place and
returning false as soon as the narrowed interval is empty; the loop is
unrolled here. -/
def Aabb.hit (b : Aabb α) (r : Ray α) (rayT : Interval α) : Bool :=
  let i1 := slabNarrow b.x.min b.x.max r.origin.x r.direction.x rayT
  if i1.max ≤ i1.min then false else
  let i2 := slabNarrow b.y.min b.y.max r.origin.y r.direction.y i1
  if i2.max ≤ i2.min then false else
  let i3 := slabNarrow b.z.min b.z.max r.origin.z r.direction.z i2
  if i3.max ≤ i3.min then false else true

/-- Clamp into the unit interval, the f64 clamp(0.0, 1.0) used by every Color
operation in utils.rs. -/
def clamp01 (v : α) : α := if v < 0 then 0 else if v > 1 then 1 else v

/-- RGB color; the source stores the three channels as a Point3
(utils.rs, struct Color). -/
structure Color (α : Type) where
  r : α
  g : α
  b : α
deriving DecidableEq, Repr

/-- Checked color constructor (utils.rs, Color.new): the source asserts each
channel lies in the unit interval and panics otherwise, modelled as none. -/
def Color.new (r g b : α) : Option (Color α) :=
  if r ≤ 1 ∧ g ≤ 1 ∧ b ≤ 1 ∧ 0 ≤ r ∧ 0 ≤ g ∧ 0 ≤ b then some ⟨r, g, b⟩ else none

/-- Minimum of two scalars (utils.rs, fn min2). -/
def min2 (x y : α) : α := if x < y then x else y

/-- Minimum of three scalars (utils.rs, fn min3). -/
def min3 (a b c : α) : α := min2 (min2 a b) c

/-- Maximum of two scalars (utils.rs, fn max2). -/
def max2 (x y : α) : α := if x > y then x else y

/-- Maximum of three scalars (utils.rs, fn max3). -/
def max3 (a b c : α) : α := max2 (max2 a b) c

/-- Sum of the smallest and the largest of three scalars
(utils.rs, fn hilo). -/
def hilo (a b c : α) : α := min3 a b c + max3 a b c

/-- Color complement (utils.rs, impl Neg for Color): each channel becomes the
absolute difference with the hilo value of the three channels. -/
def Color.neg (c : Color α) : Color α :=
  let k := hilo c.r c.g c.b
  ⟨|k - c.r|, |k - c.g|, |k - c.b|⟩

/-- Clamped color addition (utils.rs, impl Add for Color). -/
def Color.add (c o : Color α) : Color α :=
  ⟨clamp01 (c.r + o.r), clamp01 (c.g + o.g), clamp01 (c.b + o.b)⟩

/-- Color subtraction, addition of the complement
(utils.rs, impl Sub for Color). -/
def Color.sub (c o : Color α) : Color α := c.add o.neg

/-- Clamped right scalar multiplication (utils.rs, impl Mul of f64 for Color):
a negative scalar first complements the color and then scales by the
absolute value. -/
def Color.mulScalar (c : Color α) (s : α) : Color α :=
  let mv := if s < 0 then c.neg else c
  let s := |s|
  ⟨clamp01 (mv.r * s), clamp01 (mv.g * s), clamp01 (mv.b * s)⟩

/-- Clamped left scalar multiplication (utils.rs, impl Mul of Color for f64). -/
def Color.scalarMul (s : α) (c : Color α) : Color α :=
  let mv := if s < 0 then c.neg else c
  let ps := |s|
  ⟨clamp01 (ps * mv.r), clamp01 (ps * mv.g), clamp01 (ps * mv.b)⟩

/-- Clamped componentwise color multiplication (utils.rs, impl Mul for Color). -/
def Color.mulColor (c o : Color α) : Color α :=
  ⟨clamp01 (c.r * o.r), clamp01 (c.g * o.g), clamp01 (c.b * o.b)⟩

/-- Color division by a scalar (utils.rs, impl Div of f64 for Color): a
negative divisor complements the color, then the reciprocal of the absolute
value is applied through the clamped scalar multiplication. -/
def Color.divScalar (c : Color α) (s : α) : Color α :=
  let iv := if s < 0 then c.neg else c
  Color.scalarMul (1 / |s|) iv

/-- All three channels lie in the unit interval; the invariant the Color type
documents for itself in utils.rs. -/
def Color.inRange (c : Color α) : Prop :=
  0 ≤ c.r ∧ c.r ≤ 1 ∧ 0 ≤ c.g ∧ c.g ≤ 1 ∧ 0 ≤ c.b ∧ c.b ≤ 1

instance (c : Color α) : Decidable c.inRange := by
  unfold Color.inRange; infer_instance

theorem lem_clamp01_mem (v : α) : 0 ≤ clamp01 v ∧ clamp01 v ≤ 1 := by
  unfold clamp01; split_ifs <;> constructor <;> linarith

theorem lem_min3_le (a b c : α) : min3 a b c ≤ a ∧ min3 a b c ≤ b ∧ min3 a b c ≤ c := by
  unfold min3 min2; split_ifs <;> refine ⟨by linarith, by linarith, by linarith⟩

theorem lem_le_max3 (a b c : α) : a ≤ max3 a b c ∧ b ≤ max3 a b c ∧ c ≤ max3 a b c := by
  unfold max3 max2; split_ifs <;> refine ⟨by linarith, by linarith, by linarith⟩

theorem lem_neg_channel {a b c t : α} (h0a : 0 ≤ a) (h1a : a ≤ 1) (h0b : 0 ≤ b)
    (h1b : b ≤ 1) (h0c : 0 ≤ c) (h1c : c ≤ 1) (hlo : min3 a b c ≤ t)
    (hhi : t ≤ max3 a b c) :
    0 ≤ |hilo a b c - t| ∧ |hilo a b c - t| ≤ 1 := by
  have hmin : 0 ≤ min3 a b c := by
    have h := lem_min3_le (α := α) a b c
    unfold min3 min2 at *; split_ifs at * <;> linarith
  have hmax : max3 a b c ≤ 1 := by
    unfold max3 max2; split_ifs <;> linarith
  have habs : |hilo a b c - t| = hilo a b c - t := by
    apply abs_of_nonneg; unfold hilo; linarith
  constructor
  · exact abs_nonneg _
  · rw [habs]; unfold hilo; linarith

theorem lem_neg_in_range {c : Color α} (h : c.inRange) : c.neg.inRange := by
  obtain ⟨h1, h2, h3, h4, h5, h6⟩ := h
  have hr := lem_neg_channel h1 h2 h3 h4 h5 h6 (lem_min3_le c.r c.g c.b).1
    (lem_le_max3 c.r c.g c.b).1
  have hg := lem_neg_channel h1 h2 h3 h4 h5 h6 (lem_min3_le c.r c.g c.b).2.1
    (lem_le_max3 c.r c.g c.b).2.1
  have hb := lem_neg_channel h1 h2 h3 h4 h5 h6 (lem_min3_le c.r c.g c.b).2.2
    (lem_le_max3 c.r c.g c.b).2.2
  exact ⟨hr.1, hr.2, hg.1, hg.2, hb.1, hb.2⟩

/-- Claim C10: every Color operation of utils.rs keeps all three channels in
the unit interval when its color inputs are in range: the checked constructor
only produces in-range colors, addition / complement / subtraction /
componentwise multiplication / both scalar multiplications / scalar division
(with a nonzero divisor) all land in range, and addition and scalar division
saturate at 1 instead of accumulating linearly. -/
theorem c10_color_unit_interval_invariant :
    (∀ r g b : ℚ, ∀ c, Color.new r g b = some c → c.inRange) ∧
    (∀ c1 c2 : Color ℚ, c1.inRange → c2.inRange →
      (c1.add c2).inRange ∧ c1.neg.inRange ∧ (c1.sub c2).inRange ∧
      (c1.mulColor c2).inRange) ∧
    (∀ (c : Color ℚ) (s : ℚ), c.inRange →
      (c.mulScalar s).inRange ∧ (Color.scalarMul s c).inRange) ∧
    (∀ (c : Color ℚ) (s : ℚ), c.inRange → s ≠ 0 → (c.divScalar s).inRange) ∧
    (∀ c1 c2 : Color ℚ, 1 ≤ c1.r + c2.r → (c1.add c2).r = 1) ∧
    (∀ (c : Color ℚ) (s : ℚ), 0 < s → s ≤ c.r → c.r ≤ 1 → (c.divScalar s).r = 1) := by
  have hadd : ∀ c1 c2 : Color ℚ, (c1.add c2).inRange := by
    intro c1 c2
    unfold Color.add Color.inRange
    refine ⟨(lem_clamp01_mem _).1, (lem_clamp01_mem _).2, (lem_clamp01_mem _).1,
      (lem_clamp01_mem _).2, (lem_clamp01_mem _).1, (lem_clamp01_mem _).2⟩
  have hsm : ∀ (s : ℚ) (c : Color ℚ), (Color.scalarMul s c).inRange := by
    intro s c
    unfold Color.scalarMul Color.inRange
    refine ⟨(lem_clamp01_mem _).1, (lem_clamp01_mem _).2, (lem_clamp01_mem _).1,
      (lem_clamp01_mem _).2, (lem_clamp01_mem _).1, (lem_clamp01_mem _).2⟩
  refine ⟨?_, ?_, ?_, ?_, ?_, ?_⟩
  · intro r g b c h
    unfold Color.new at h
    split_ifs at h with hc
    cases h
    exact ⟨hc.2.2.2.1, hc.1, hc.2.2.2.2.1, hc.2.1, hc.2.2.2.2.2, hc.2.2.1⟩
  · intro c1 c2 h1 _
    refine ⟨hadd c1 c2, lem_neg_in_range h1, hadd c1 c2.neg, ?_⟩
    unfold Color.mulColor Color.inRange
    refine ⟨(lem_clamp01_mem _).1, (lem_clamp01_mem _).2, (lem_clamp01_mem _).1,
      (lem_clamp01_mem _).2, (lem_clamp01_mem _).1, (lem_clamp01_mem _).2⟩
  · intro c s _
    constructor
    · unfold Color.mulScalar Color.inRange
      refine ⟨(lem_clamp01_mem _).1, (lem_clamp01_mem _).2, (lem_clamp01_mem _).1,
        (lem_clamp01_mem _).2, (lem_clamp01_mem _).1, (lem_clamp01_mem _).2⟩
    · exact hsm s c
  · intro c s _ _
    unfold Color.divScalar
    exact hsm _ _
  · intro c1 c2 hge
    have hval : (c1.add c2).r = clamp01 (c1.r + c2.r) := rfl
    rw [hval]
    unfold clamp01
    split_ifs with h1 h2
    · linarith
    · rfl
    · linarith
  · intro c s hs hsr hr1
    have hsneg : ¬ s < 0 := by linarith
    have habs : |s| = s := abs_of_pos hs
    have hpos : 0 < 1 / |s| := by rw [habs]; positivity
    have hmvneg : ¬ (1 / |s|) < 0 := by linarith
    have hps : abs (1 / abs s) = 1 / s := by rw [abs_of_pos hpos, habs]
    have hval : (c.divScalar s).r =
        clamp01 (abs (1 / abs s) * (if (1 / abs s) < 0 then c.neg else c).r) := by
      simp only [Color.divScalar, Color.scalarMul, if_neg hsneg]
    rw [hval, if_neg hmvneg, hps]
    have hge1 : 1 ≤ (1 / s) * c.r := by
      rw [one_div, inv_mul_eq_div, le_div_iff₀ hs]; linarith
    unfold clamp01
    split_ifs with h1 h2
    · linarith
    · rfl
    · linarith

/-- Witness for C10: concrete evaluations through the invariant theorem —
an in-range sum stays in range, and a division that overshoots saturates
at 1. -/
theorem c10_color_unit_interval_invariant_witness :
    ((⟨3/5, 1/5, 9/10⟩ : Color ℚ).add ⟨7/10, 1/10, 3/10⟩).inRange ∧
    ((⟨4/5, 0, 0⟩ : Color ℚ).divScalar (1/2)).r = 1 :=
  ⟨(c10_color_unit_interval_invariant.2.1 ⟨3/5, 1/5, 9/10⟩ ⟨7/10, 1/10, 3/10⟩
      (by norm_num [Color.inRange]) (by norm_num [Color.inRange])).1,
   c10_color_unit_interval_invariant.2.2.2.2.2 ⟨4/5, 0, 0⟩ (1/2)
      (by norm_num) (by norm_num) (by norm_num)⟩

/-- Counterexample for C6: on the box whose three axis intervals all have the
same size the source selects axis Z, not axis X as the claim states. -/
theorem c6_longest_axis_counterexample :
    (let b : Aabb ℚ := ⟨⟨0, 1⟩, ⟨0, 1⟩, ⟨0, 1⟩⟩
     b.x.size = b.y.size ∧ b.y.size = b.z.size ∧
     b.longestAxis = Axis.Z ∧ b.longestAxis ≠ Axis.X) := by
  refine ⟨by norm_num [Interval.size], by norm_num [Interval.size], ?_, ?_⟩
  · norm_num [Aabb.longestAxis, Interval.size]
  · norm_num [Aabb.longestAxis, Interval.size]
    decide

/-- Claim C6 (amended): longest_axis always returns an axis of maximal
interval size, but ties are broken in favour of Z, then Y, then X: X is
returned only when strictly largest, Y only when strictly larger than Z,
and when all three sizes are equal the result is Z. -/
theorem c6_longest_axis_selection (b : Aabb ℚ) :
    ((b.axisInterval b.longestAxis).size ≥ b.x.size ∧
     (b.axisInterval b.longestAxis).size ≥ b.y.size ∧
     (b.axisInterval b.longestAxis).size ≥ b.z.size) ∧
    (b.longestAxis = Axis.X → b.x.size > b.y.size ∧ b.x.size > b.z.size) ∧
    (b.longestAxis = Axis.Y → b.x.size ≤ b.y.size ∧ b.y.size > b.z.size) ∧
    (b.x.size = b.y.size ∧ b.y.size = b.z.size → b.longestAxis = Axis.Z) := by
  unfold Aabb.longestAxis
  split_ifs with h1 h2 h3 <;>
    simp only [Aabb.axisInterval] <;>
    refine ⟨⟨by linarith, by linarith, by linarith⟩, ?_, ?_, ?_⟩ <;>
    intro h <;> first
      | exact ⟨by linarith, by linarith⟩
      | exact ⟨by linarith, by linarith, by linarith⟩
      | rfl
      | simp_all
      | (exfalso; simp_all)

/-- Witness for C6 (amended): on a box with all sizes equal the theorem
yields axis Z. -/
theorem c6_longest_axis_selection_witness :
    (⟨⟨0, 2⟩, ⟨0, 2⟩, ⟨0, 2⟩⟩ : Aabb ℚ).longestAxis = Axis.Z :=
  (c6_longest_axis_selection ⟨⟨0, 2⟩, ⟨0, 2⟩, ⟨0, 2⟩⟩).2.2.2
    (by norm_num [Interval.size])

/-- Claim C7: for a ray with nonzero direction components, the slab test
accepts exactly when each of the three successive per-axis narrowings of the
search interval (in the source's axis order X, Y, Z) is nonempty — so an
empty narrowed interval on any single axis forces rejection no matter what
the other two axes would say, and acceptance requires all three axes to pass. -/
theorem c7_aabb_hit_slab_narrowing (b : Aabb ℚ) (r : Ray ℚ) (t0 : Interval ℚ)
    (hx : r.direction.x ≠ 0) (hy : r.direction.y ≠ 0) (hz : r.direction.z ≠ 0) :
    Aabb.hit b r t0 = true ↔
      (let i1 := slabNarrow b.x.min b.x.max r.origin.x r.direction.x t0
       let i2 := slabNarrow b.y.min b.y.max r.origin.y r.direction.y i1
       let i3 := slabNarrow b.z.min b.z.max r.origin.z r.direction.z i2
       i1.min < i1.max ∧ i2.min < i2.max ∧ i3.min < i3.max) := by
  clear hx hy hz
  unfold Aabb.hit
  simp only []
  split_ifs with h1 h2 h3
  · exact iff_of_false (by simp) (fun h => absurd h.1 (not_lt.mpr h1))
  · exact iff_of_false (by simp) (fun h => absurd h.2.1 (not_lt.mpr h2))
  · exact iff_of_false (by simp) (fun h => absurd h.2.2 (not_lt.mpr h3))
  · exact iff_of_true rfl ⟨not_le.mp h1, not_le.mp h2, not_le.mp h3⟩

/-- Witness for C7: a concrete accepting instance obtained through the
theorem, with all three narrowed intervals nonempty. -/
theorem c7_aabb_hit_slab_narrowing_witness :
    Aabb.hit (⟨⟨0, 1⟩, ⟨0, 1⟩, ⟨0, 1⟩⟩ : Aabb ℚ)
      ⟨⟨-1, -1, -1⟩, ⟨1, 1, 1⟩, 0⟩ ⟨0, 10⟩ = true :=
  (c7_aabb_hit_slab_narrowing ⟨⟨0, 1⟩, ⟨0, 1⟩, ⟨0, 1⟩⟩ ⟨⟨-1, -1, -1⟩, ⟨1, 1, 1⟩, 0⟩
    ⟨0, 10⟩ (by norm_num) (by norm_num) (by norm_num)).mpr
    (by norm_num [slabNarrow])

/-- Claim C9: the box built by new_from_boxes contains both of its inputs —
any point whose coordinates lie (inclusively) in the per-axis intervals of
either input box lies in the per-axis intervals of the union box. -/
theorem c9_enclose_contains_both (b0 b1 : Aabb ℚ) (p : Vec3 ℚ)
    (h : (b0.x.contains p.x ∧ b0.y.contains p.y ∧ b0.z.contains p.z) ∨
         (b1.x.contains p.x ∧ b1.y.contains p.y ∧ b1.z.contains p.z)) :
    (Aabb.newFromBoxes b0 b1).x.contains p.x ∧
    (Aabb.newFromBoxes b0 b1).y.contains p.y ∧
    (Aabb.newFromBoxes b0 b1).z.contains p.z := by
  unfold Aabb.newFromBoxes Interval.tightEnclose Interval.contains at *
  rcases h with ⟨hx, hy, hz⟩ | ⟨hx, hy, hz⟩ <;>
    refine ⟨⟨?_, ?_⟩, ⟨?_, ?_⟩, ⟨?_, ?_⟩⟩ <;>
    simp only [] <;> split_ifs <;>
    first
      | linarith [hx.1, hx.2]
      | linarith [hy.1, hy.2]
      | linarith [hz.1, hz.2]

/-- Witness for C9: a concrete point of the second box is contained in the
union of two concrete boxes. -/
theorem c9_enclose_contains_both_witness :
    (Aabb.newFromBoxes (⟨⟨0, 1⟩, ⟨0, 1⟩, ⟨0, 1⟩⟩ : Aabb ℚ)
      ⟨⟨2, 5⟩, ⟨-3, 0⟩, ⟨1, 4⟩⟩).x.contains 3 ∧
    (Aabb.newFromBoxes (⟨⟨0, 1⟩, ⟨0, 1⟩, ⟨0, 1⟩⟩ : Aabb ℚ)
      ⟨⟨2, 5⟩, ⟨-3, 0⟩, ⟨1, 4⟩⟩).y.contains (-1) ∧
    (Aabb.newFromBoxes (⟨⟨0, 1⟩, ⟨0, 1⟩, ⟨0, 1⟩⟩ : Aabb ℚ)
      ⟨⟨2, 5⟩, ⟨-3, 0⟩, ⟨1, 4⟩⟩).z.contains 2 :=
  c9_enclose_contains_both ⟨⟨0, 1⟩, ⟨0, 1⟩, ⟨0, 1⟩⟩ ⟨⟨2, 5⟩, ⟨-3, 0⟩, ⟨1, 4⟩⟩
    ⟨3, -1, 2⟩ (Or.inr (by norm_num [Interval.contains]))

noncomputable section RealModel

/-- Length of a vector: square root of the squared length
(utils.rs, Point3.length). -/
def Vec3.length (v : Vec3 ℝ) : ℝ := Real.sqrt v.lengthSquared

/-- Normalisation (utils.rs, Point3.unit_vector): the source divides by the
length, and Point3 division multiplies by the reciprocal. -/
def Vec3.unitVector (v : Vec3 ℝ) : Vec3 ℝ := Vec3.smul (1 / v.length) v

/-- Two-argument arctangent as computed by f64::atan2 (used by the sphere UV
computation); f64 signed zeros collapse to the single real zero. -/
def atan2 (y x : ℝ) : ℝ :=
  if x > 0 then Real.arctan (y / x)
  else if x < 0 then
    (if y ≥ 0 then Real.arctan (y / x) + Real.pi else Real.arctan (y / x) - Real.pi)
  else
    (if y > 0 then Real.pi / 2 else if y < 0 then -(Real.pi / 2) else 0)

/-- Color table of a decoded image texture.  The pixel grid is produced by
the external asset loader (out of the verified core per the spec), so image
sampling is kept at its interface: a function from the clamped UV coordinates
to a color (textures/image_texture.rs). -/
def ImageSample : Type := ℝ → ℝ → Color ℝ

/-- Texture variants (textures/mod.rs, enum Textures). -/
inductive Textures : Type
| solidColor (albedo : Color ℝ)
| checkerTexture (invScale : ℝ) (even odd : Textures)
| imageTexture (sample : ImageSample)

/-- Texture evaluation at surface coordinates and a point
(textures/mod.rs, Textures.value together with the per-variant value
implementations: a solid color ignores its arguments, a checker selects the
even or odd sub-texture by the parity of the floored scaled point
coordinates, an image texture samples the loaded image). -/
def Textures.value : Textures → ℝ → ℝ → Vec3 ℝ → Color ℝ
  | .solidColor albedo, _, _, _ => albedo
  | .checkerTexture invScale even odd, u, v, p =>
      let xInteger := Int.floor (invScale * p.x)
      let yInteger := Int.floor (invScale * p.y)
      let zInteger := Int.floor (invScale * p.z)
      if (xInteger + yInteger + zInteger) % 2 = 0 then even.value u v p
      else odd.value u v p
  | .imageTexture sample, u, v, _ => sample u v

/-- Lambertian material: a texture and a scatter probability
(materials/lambertian.rs, struct Lambertian). -/
structure Lambertian where
  tex : Textures
  scatterProb : ℝ

/-- Metal material: albedo and fuzz factor
(materials/metal.rs, struct Metal). -/
structure Metal where
  albedo : Color ℝ
  fuzz : ℝ

/-- Dielectric material: refraction index
(materials/dielectric.rs, struct Dielectric). -/
structure Dielectric where
  refractionIndex : ℝ

/-- Material variants (materials/mod.rs, enum Materials). -/
inductive Materials : Type
| lambertian (l : Lambertian)
| metal (m : Metal)
| dielectric (d : Dielectric)

/-- Checked Metal constructor (materials/metal.rs, Metal.new): the source
asserts the fuzz factor is at most 1 and at least 0 and panics otherwise,
modelled as none. -/
def Metal.new (c : Color ℝ) (fuzz : ℝ) : Option Metal :=
  if fuzz ≤ 1 then (if fuzz ≥ 0 then some ⟨c, fuzz⟩ else none) else none

/-- Intersection record (objects/mod.rs, struct HitRecord). -/
structure HitRecord where
  loc : Vec3 ℝ
  normal : Vec3 ℝ
  mat : Materials
  t : ℝ
  uTexture : ℝ
  vTexture : ℝ
  frontFace : Bool

/-- Record constructor (objects/mod.rs, HitRecord.new): the hit is front
facing when the ray direction points against the stored normal, and the
normal is negated on a back face. -/
def HitRecord.new (hitRay : Ray ℝ) (loc normal : Vec3 ℝ) (t uTexture vTexture : ℝ)
    (mat : Materials) : HitRecord :=
  if hitRay.direction.dot normal < 0 then
    ⟨loc, normal, mat, t, uTexture, vTexture, true⟩
  else
    ⟨loc, normal.neg, mat, t, uTexture, vTexture, false⟩

/-- Sphere primitive (objects/sphere.rs, struct Sphere).  The source stores
the position and radius inside a TransformTimeline and re-evaluates them at
the ray's time; a sphere whose timeline has no animation keyframes (the form
Sphere::new constructs and the form the randomized scenes of the claims use)
evaluates to its construction-time center and radius at every time, so center
and radius are stored directly and update_bb is the identity. -/
structure Sphere where
  id : ℕ
  hide : Bool
  center : Vec3 ℝ
  radius : ℝ
  mat : Materials

/-- Checked sphere constructor (objects/sphere.rs, Sphere.new): the source
asserts a nonnegative radius and panics otherwise, modelled as none; id 0 and
hide false as in the source. -/
def Sphere.new (center : Vec3 ℝ) (radius : ℝ) (mat : Materials) : Option Sphere :=
  if radius ≥ 0 then some ⟨0, false, center, radius, mat⟩ else none

/-- Bounding box of a sphere (objects/sphere.rs, Sphere.new and
Sphere.update_bb): the box of the two corners center ± (radius,radius,radius). -/
def Sphere.bbox (s : Sphere) : Aabb ℝ :=
  Aabb.newFromPoints (s.center.sub ⟨s.radius, s.radius, s.radius⟩)
    (s.center.add ⟨s.radius, s.radius, s.radius⟩)

/-- Spherical surface coordinates of a point on the unit sphere
(objects/sphere.rs, Sphere.get_sphere_uv). -/
def getSphereUV (p : Vec3 ℝ) : ℝ × ℝ :=
  let theta := Real.arccos (-p.y)
  let phi := atan2 (-p.z) p.x + Real.pi
  (phi / (2 * Real.pi), theta / Real.pi)

/-- Record built by a successful sphere intersection at root t
(objects/sphere.rs, the tail of Sphere.hit): intersection point, outward
normal (point minus center, divided by the radius), UV from the normal. -/
def Sphere.mkRec (s : Sphere) (r : Ray ℝ) (t : ℝ) : HitRecord :=
  let p := r.at t
  let n := Vec3.smul (1 / s.radius) (p.sub s.center)
  let uv := getSphereUV n
  HitRecord.new r p n t uv.1 uv.2 s.mat

/-- Ray/sphere intersection (objects/sphere.rs, Sphere.hit): hidden spheres
never hit; otherwise solve the half-form quadratic, reject a negative
discriminant, and accept the smaller root if it lies strictly inside the
interval, else the larger root, else nothing. -/
def Sphere.hit (s : Sphere) (r : Ray ℝ) (rayT : Interval ℝ) : Option HitRecord :=
  if s.hide then none else
  let oc := s.center.sub r.origin
  let a := r.direction.lengthSquared
  let h := r.direction.dot oc
  let c := oc.lengthSquared - s.radius ^ 2
  let discriminant := h ^ 2 - a * c
  if discriminant < 0 then none else
  let sqrtd := Real.sqrt discriminant
  if rayT.surrounds ((h - sqrtd) / a) then some (s.mkRec r ((h - sqrtd) / a))
  else if rayT.surrounds ((h + sqrtd) / a) then some (s.mkRec r ((h + sqrtd) / a))
  else none

/-- Scene tree (objects/mod.rs, enum Hittables).  The Triangle variant is
omitted: the claims quantify over scenes of spheres, which the mesh-free
construction paths never mix with triangles.  The HitList variant keeps only
its object vector; its cached bounding box exists in the source only to be
read back through Hittables::bounding_box, which no sphere-scene claim ever
reaches for a list. -/
inductive Hittables : Type
| sphere (s : Sphere)
| hitlist (objs : List Hittables)
| bvhWrapper (left : Hittables) (right : Hittables) (bbox : Aabb ℝ)

/-- Dispatching bounding-box accessor (objects/mod.rs,
Hittables.bounding_box).  For a list the source returns the cached union box
(EMPTY when the list is empty); no claim evaluates it, and it is modelled as
a degenerate point box. -/
def Hittables.boundingBox : Hittables → Aabb ℝ
  | .sphere s => s.bbox
  | .hitlist _ => ⟨⟨0, 0⟩, ⟨0, 0⟩, ⟨0, 0⟩⟩
  | .bvhWrapper _ _ bbox => bbox

mutual

/-- Dispatching intersection (objects/mod.rs, Hittables.hit; objects/hitlist.rs,
HitList.hit; objects/bvhwrapper.rs, BVHWrapper.hit).  A BVH node first runs
the slab test on a clone of the interval and returns nothing on a miss;
otherwise it queries the left subtree on the full interval and the right
subtree on the interval whose upper bound is the left hit's t (or the
original upper bound when the left missed), and the right hit wins when
present.  The update_bb calls of the source are the identity for the static
spheres modelled here. -/
def Hittables.hit : Hittables → Ray ℝ → Interval ℝ → Option HitRecord
  | .sphere s, r, rayT => s.hit r rayT
  | .hitlist objs, r, rayT => hitScan objs r rayT none
  | .bvhWrapper left right bbox, r, rayT =>
      if bbox.hit r rayT then
        let hitLeft := left.hit r rayT
        let hitRight := right.hit r
          ⟨rayT.min, match hitLeft with | some item => item.t | none => rayT.max⟩
        match hitRight with
        | some rec2 => some rec2
        | none => hitLeft
      else none

/-- Linear scan of a list's children (objects/hitlist.rs, the loop body of
HitList.hit): each child is queried on the interval whose upper bound is the
closest t found so far (initially the query's upper bound), and a hit
replaces the running record. -/
def hitScan : List Hittables → Ray ℝ → Interval ℝ → Option HitRecord → Option HitRecord
  | [], _, _, acc => acc
  | obj :: rest, r, rayT, acc =>
      let closest := match acc with | some rec => rec.t | none => rayT.max
      match obj.hit r ⟨rayT.min, closest⟩ with
      | some rec => hitScan rest r rayT (some rec)
      | none => hitScan rest r rayT acc

end

/-- Union box of a list of boxes (objects/bvhwrapper.rs, the fold at the head
of help_generate).  The source folds Aabb::new_from_boxes starting from the
EMPTY sentinel box, for which tight_enclose is the identity; over a field
without infinities this is the fold from the first box.  The empty range is
never passed by the source and yields a degenerate point box. -/
def encloseBoxes : List (Aabb ℝ) → Aabb ℝ
  | [] => ⟨⟨0, 0⟩, ⟨0, 0⟩, ⟨0, 0⟩⟩
  | b :: bs => bs.foldl Aabb.newFromBoxes b

/-- Sort order used by the BVH builder (objects/bvhwrapper.rs,
BVHWrapper.box_compare): compare two objects by the min of their bounding-box
interval on the split axis.  The source returns an Ordering consumed by the
stable slice sort; the equivalent boolean "less or equal" drives mergeSort. -/
def boxCompareLe (axis : Axis) (a b : Hittables) : Bool :=
  (a.boundingBox.axisInterval axis).min ≤ (b.boundingBox.axisInterval axis).min

/-- Recursive BVH construction (objects/bvhwrapper.rs,
BVHWrapper.help_generate) on the slice the start/end indices of the source
delimit: compute the union box of the range and its longest axis; a
one-element range duplicates its element into both children, a two-element
range assigns them left and right, and a longer range is stably sorted by the
split axis and split at the midpoint.  The source never recurses on an empty
range (new_wrapper guards it); that case returns an empty list. -/
def helpGenerate : List Hittables → Hittables
  | [] => .hitlist []
  | [a] => .bvhWrapper a a (encloseBoxes [a.boundingBox])
  | [a, b] => .bvhWrapper a b (encloseBoxes [a.boundingBox, b.boundingBox])
  | a :: b :: c :: rest =>
    let objs := a :: b :: c :: rest
    let bbox := encloseBoxes (objs.map Hittables.boundingBox)
    let sorted := objs.mergeSort (boxCompareLe bbox.longestAxis)
    let mid := objs.length / 2
    .bvhWrapper (helpGenerate (sorted.take mid)) (helpGenerate (sorted.drop mid)) bbox
termination_by objs => objs.length
decreasing_by
  · simp only [List.length_take, List.length_mergeSort]
    simp only [List.length_cons]
    omega
  · simp only [List.length_drop, List.length_mergeSort]
    simp only [List.length_cons]
    omega

/-- Root wrapper (objects/bvhwrapper.rs, BVHWrapper.new_from_vec): build the
tree and recompute the root box as the union of the children's boxes. -/
def newFromVec (objects : List Hittables) : Hittables :=
  match helpGenerate objects with
  | .bvhWrapper left right _ =>
      .bvhWrapper left right (Aabb.newFromBoxes left.boundingBox right.boundingBox)
  | other => other

/-- Visibility filter of the BVH entry point (objects/bvhwrapper.rs, the
filter inside BVHWrapper.new_wrapper): hidden spheres are dropped, wrappers
and lists are kept.  (The source also keeps non-hidden triangles.) -/
def isVisible : Hittables → Bool
  | .sphere s => !s.hide
  | _ => true

/-- BVH entry point (objects/bvhwrapper.rs, BVHWrapper.new_wrapper): filter
the scene list to its visible objects; an empty result degenerates to an
empty list, otherwise the tree is built over the visible objects. -/
def newWrapper (list : List Hittables) : Hittables :=
  let visibleObjects := list.filter isVisible
  if visibleObjects.isEmpty then .hitlist [] else newFromVec visibleObjects

theorem lem_lsq_nonneg (v : Vec3 ℝ) : 0 ≤ v.lengthSquared := by
  unfold Vec3.lengthSquared; positivity

theorem lem_lsq_pos {v : Vec3 ℝ} (h : v.lengthSquared ≠ 0) : 0 < v.lengthSquared :=
  lt_of_le_of_ne (lem_lsq_nonneg v) (Ne.symm h)

theorem lem_mkRec_t (s : Sphere) (r : Ray ℝ) (t : ℝ) : (s.mkRec r t).t = t := by
  unfold Sphere.mkRec HitRecord.new
  simp only []
  split_ifs <;> rfl

theorem lem_quad_root {a hh cc t s : ℝ} (ha : a ≠ 0) (hs : s ^ 2 = hh ^ 2 - a * cc)
    (ht : t = (hh - s) / a ∨ t = (hh + s) / a) : a * t ^ 2 - 2 * hh * t + cc = 0 := by
  rcases ht with ht | ht
  · have hat : a * t = hh - s := by rw [ht]; field_simp
    have hmul : a * (a * t ^ 2 - 2 * hh * t + cc) = 0 := by
      linear_combination (a * t - hh - s) * hat + hs
    rcases mul_eq_zero.mp hmul with hz | hz
    · exact absurd hz ha
    · exact hz
  · have hat : a * t = hh + s := by rw [ht]; field_simp
    have hmul : a * (a * t ^ 2 - 2 * hh * t + cc) = 0 := by
      linear_combination (a * t - hh + s) * hat + hs
    rcases mul_eq_zero.mp hmul with hz | hz
    · exact absurd hz ha
    · exact hz

theorem lem_at_lsq (r : Ray ℝ) (c : Vec3 ℝ) (t : ℝ) :
    ((r.at t).sub c).lengthSquared
      = r.direction.lengthSquared * t ^ 2 - 2 * (r.direction.dot (c.sub r.origin)) * t
        + (c.sub r.origin).lengthSquared := by
  simp only [Ray.at, Vec3.sub, Vec3.add, Vec3.neg, Vec3.smul, Vec3.lengthSquared, Vec3.dot]
  ring

theorem lem_roots_le {a b s : ℝ} (ha : 0 < a) (hs : 0 ≤ s) :
    (b - s) / a ≤ (b + s) / a := by
  rw [div_le_div_iff ha ha]
  nlinarith

theorem lem_sphere_hit_some {s : Sphere} {r : Ray ℝ} {I : Interval ℝ} {rec : HitRecord}
    (ha : r.direction.lengthSquared ≠ 0) (h : s.hit r I = some rec) :
    s.hide = false ∧ ∃ t, rec = s.mkRec r t ∧ rec.t = t ∧ I.surrounds t ∧
      ((r.at t).sub s.center).lengthSquared = s.radius ^ 2 := by
  unfold Sphere.hit at h
  simp only [] at h
  split_ifs at h with hhide hdisc hs1 hs2
  · have hrec := (Option.some.inj h).symm
    refine ⟨by simpa using hhide, _, hrec, ?_, hs1, ?_⟩
    · rw [hrec, lem_mkRec_t]
    · rw [lem_at_lsq]
      have hq := lem_quad_root ha (Real.sq_sqrt (not_lt.mp hdisc)) (Or.inl rfl)
      linarith
  · have hrec := (Option.some.inj h).symm
    refine ⟨by simpa using hhide, _, hrec, ?_, hs2, ?_⟩
    · rw [hrec, lem_mkRec_t]
    · rw [lem_at_lsq]
      have hq := lem_quad_root ha (Real.sq_sqrt (not_lt.mp hdisc)) (Or.inr rfl)
      linarith

theorem lem_sphere_hit_widen {s : Sphere} {r : Ray ℝ} {lo hi hi2 : ℝ} {rec : HitRecord}
    (ha : r.direction.lengthSquared ≠ 0) (hle : hi2 ≤ hi)
    (h : s.hit r ⟨lo, hi2⟩ = some rec) : s.hit r ⟨lo, hi⟩ = some rec := by
  have hapos := lem_lsq_pos ha
  unfold Sphere.hit at h ⊢
  simp only [] at h ⊢
  simp only [Interval.surrounds] at h ⊢
  split_ifs at h with hhide hdisc hs1 hs2
  · rw [if_neg hhide, if_neg hdisc, if_pos ⟨hs1.1, lt_of_lt_of_le hs1.2 hle⟩]
    exact h
  · have hroots := lem_roots_le (b := r.direction.dot (s.center.sub r.origin))
      (s := Real.sqrt ((r.direction.dot (s.center.sub r.origin)) ^ 2 -
        r.direction.lengthSquared * ((s.center.sub r.origin).lengthSquared - s.radius ^ 2)))
      hapos (Real.sqrt_nonneg _)
    have hn1 : ¬ (lo < (r.direction.dot (s.center.sub r.origin) - Real.sqrt
        ((r.direction.dot (s.center.sub r.origin)) ^ 2 - r.direction.lengthSquared *
          ((s.center.sub r.origin).lengthSquared - s.radius ^ 2))) /
            r.direction.lengthSquared ∧
        (r.direction.dot (s.center.sub r.origin) - Real.sqrt
        ((r.direction.dot (s.center.sub r.origin)) ^ 2 - r.direction.lengthSquared *
          ((s.center.sub r.origin).lengthSquared - s.radius ^ 2))) /
            r.direction.lengthSquared < hi) := by
      intro hcon
      exact hs1 ⟨hcon.1, lt_of_le_of_lt hroots hs2.2⟩
    rw [if_neg hhide, if_neg hdisc, if_neg hn1, if_pos ⟨hs2.1, lt_of_lt_of_le hs2.2 hle⟩]
    exact h

theorem lem_sphere_hit_restrict {s : Sphere} {r : Ray ℝ} {lo hi hi2 : ℝ} {b : HitRecord}
    (ha : r.direction.lengthSquared ≠ 0) (hle : hi2 ≤ hi)
    (h : s.hit r ⟨lo, hi⟩ = some b) (hb : b.t < hi2) : s.hit r ⟨lo, hi2⟩ = some b := by
  have hapos := lem_lsq_pos ha
  obtain ⟨-, t, hrect, hrecteq, -, -⟩ := lem_sphere_hit_some ha h
  unfold Sphere.hit at h ⊢
  simp only [] at h ⊢
  simp only [Interval.surrounds] at h ⊢
  split_ifs at h with hhide hdisc hs1 hs2
  · have hteq : b.t = (r.direction.dot (s.center.sub r.origin) - Real.sqrt
        ((r.direction.dot (s.center.sub r.origin)) ^ 2 - r.direction.lengthSquared *
          ((s.center.sub r.origin).lengthSquared - s.radius ^ 2))) /
            r.direction.lengthSquared := by
      rw [(Option.some.inj h).symm, lem_mkRec_t]
    rw [if_neg hhide, if_neg hdisc, if_pos ⟨hs1.1, by rw [← hteq]; exact hb⟩]
    exact h
  · have hroots := lem_roots_le (b := r.direction.dot (s.center.sub r.origin))
      (s := Real.sqrt ((r.direction.dot (s.center.sub r.origin)) ^ 2 -
        r.direction.lengthSquared * ((s.center.sub r.origin).lengthSquared - s.radius ^ 2)))
      hapos (Real.sqrt_nonneg _)
    have hteq : b.t = (r.direction.dot (s.center.sub r.origin) + Real.sqrt
        ((r.direction.dot (s.center.sub r.origin)) ^ 2 - r.direction.lengthSquared *
          ((s.center.sub r.origin).lengthSquared - s.radius ^ 2))) /
            r.direction.lengthSquared := by
      rw [(Option.some.inj h).symm, lem_mkRec_t]
    have hn1 : ¬ (lo < (r.direction.dot (s.center.sub r.origin) - Real.sqrt
        ((r.direction.dot (s.center.sub r.origin)) ^ 2 - r.direction.lengthSquared *
          ((s.center.sub r.origin).lengthSquared - s.radius ^ 2))) /
            r.direction.lengthSquared ∧
        (r.direction.dot (s.center.sub r.origin) - Real.sqrt
        ((r.direction.dot (s.center.sub r.origin)) ^ 2 - r.direction.lengthSquared *
          ((s.center.sub r.origin).lengthSquared - s.radius ^ 2))) /
            r.direction.lengthSquared < hi2) := by
      intro hcon
      exact hs1 ⟨hcon.1, lt_of_lt_of_le hcon.2 hle⟩
    rw [if_neg hhide, if_neg hdisc, if_neg hn1, if_pos ⟨hs2.1, by rw [← hteq]; exact hb⟩]
    exact h

theorem lem_sphere_hit_none_narrow {s : Sphere} {r : Ray ℝ} {lo hi hi2 : ℝ}
    (hle : hi2 ≤ hi) (h : s.hit r ⟨lo, hi⟩ = none) : s.hit r ⟨lo, hi2⟩ = none := by
  unfold Sphere.hit at h ⊢
  simp only [] at h ⊢
  simp only [Interval.surrounds] at h ⊢
  split_ifs at h with hhide hdisc hs1 hs2
  · rw [if_pos hhide]
  · rw [if_neg hhide, if_pos hdisc]
  · rw [if_neg hhide, if_neg hdisc,
      if_neg (fun hcon => hs1 ⟨hcon.1, lt_of_lt_of_le hcon.2 hle⟩),
      if_neg (fun hcon => hs2 ⟨hcon.1, lt_of_lt_of_le hcon.2 hle⟩)]

theorem lem_ite_max (a b : ℝ) : (if a > b then a else b) = max a b := by
  split_ifs with h
  · exact (max_eq_left h.le).symm
  · exact (max_eq_right (not_lt.mp h)).symm

theorem lem_ite_min (a b : ℝ) : (if a < b then a else b) = min a b := by
  split_ifs with h
  · exact (min_eq_left h.le).symm
  · exact (min_eq_right (not_lt.mp h)).symm

theorem lem_slabNarrow_eq (bmin bmax o d : ℝ) (I : Interval ℝ) :
    slabNarrow bmin bmax o d I =
      ⟨max (min ((bmin - o) * (1 / d)) ((bmax - o) * (1 / d))) I.min,
       min (max ((bmin - o) * (1 / d)) ((bmax - o) * (1 / d))) I.max⟩ := by
  unfold slabNarrow
  simp only []
  by_cases h : (bmin - o) * (1 / d) < (bmax - o) * (1 / d)
  · rw [if_pos h, lem_ite_max, lem_ite_min, min_eq_left h.le, max_eq_right h.le]
  · rw [if_neg h, lem_ite_max, lem_ite_min, min_eq_right (not_lt.mp h),
      max_eq_left (not_lt.mp h)]

theorem lem_slab_axis {o d t bmin bmax : ℝ} (hd : d ≠ 0)
    (hlo : bmin ≤ o + t * d) (hhi : o + t * d ≤ bmax) :
    min ((bmin - o) * (1 / d)) ((bmax - o) * (1 / d)) ≤ t ∧
    t ≤ max ((bmin - o) * (1 / d)) ((bmax - o) * (1 / d)) ∧
    (min ((bmin - o) * (1 / d)) ((bmax - o) * (1 / d)) = t →
       o + t * d = bmin ∨ o + t * d = bmax) ∧
    (max ((bmin - o) * (1 / d)) ((bmax - o) * (1 / d)) = t →
       o + t * d = bmin ∨ o + t * d = bmax) ∧
    (bmin < bmax → min ((bmin - o) * (1 / d)) ((bmax - o) * (1 / d)) <
       max ((bmin - o) * (1 / d)) ((bmax - o) * (1 / d))) := by
  have htd : t = (t * d) * (1 / d) := by field_simp
  rcases lt_or_gt_of_ne hd with hneg | hpos
  · have h1d : 1 / d < 0 := one_div_neg.mpr hneg
    have h01 : (bmax - o) * (1 / d) ≤ (bmin - o) * (1 / d) :=
      mul_le_mul_of_nonpos_right (by linarith) h1d.le
    rw [min_eq_right h01, max_eq_left h01]
    refine ⟨?_, ?_, ?_, ?_, ?_⟩
    · rw [htd]
      exact mul_le_mul_of_nonpos_right (by linarith) h1d.le
    · rw [htd]
      exact mul_le_mul_of_nonpos_right (by linarith) h1d.le
    · intro he
      right
      field_simp at he
      linarith
    · intro he
      left
      field_simp at he
      linarith
    · intro hbb
      exact mul_lt_mul_of_neg_right (by linarith) h1d
  · have h1d : 0 < 1 / d := by positivity
    have h01 : (bmin - o) * (1 / d) ≤ (bmax - o) * (1 / d) :=
      mul_le_mul_of_nonneg_right (by linarith) h1d.le
    rw [min_eq_left h01, max_eq_right h01]
    refine ⟨?_, ?_, ?_, ?_, ?_⟩
    · rw [htd]
      exact mul_le_mul_of_nonneg_right (by linarith) h1d.le
    · rw [htd]
      exact mul_le_mul_of_nonneg_right (by linarith) h1d.le
    · intro he
      left
      field_simp at he
      linarith
    · intro he
      right
      field_simp at he
      linarith
    · intro hbb
      exact mul_lt_mul_of_pos_right (by linarith) h1d

theorem lem_two_axis_false {u v w rad : ℝ} (hu : u ^ 2 = rad ^ 2) (hv : v ^ 2 = rad ^ 2)
    (hsum : u ^ 2 + v ^ 2 + w ^ 2 = rad ^ 2) (hrad : 0 < rad) : False := by
  nlinarith [sq_nonneg w]

theorem lem_endpoint_extremal {pi bmin bmax ci rad : ℝ} (he : pi = bmin ∨ pi = bmax)
    (hb1 : bmin ≤ ci - rad) (hb2 : ci + rad ≤ bmax)
    (hp1 : ci - rad ≤ pi) (hp2 : pi ≤ ci + rad) : (pi - ci) ^ 2 = rad ^ 2 := by
  rcases he with he | he
  · have : pi - ci = -rad := by linarith
    rw [this]; ring
  · have : pi - ci = rad := by linarith
    rw [this]

theorem lem_max_eq_or {a b t : ℝ} (h : max a b = t) : a = t ∨ b = t := by
  rcases max_choice a b with hc | hc
  · exact Or.inl (hc.symm.trans h)
  · exact Or.inr (hc.symm.trans h)

theorem lem_min_eq_or {a b t : ℝ} (h : min a b = t) : a = t ∨ b = t := by
  rcases min_choice a b with hc | hc
  · exact Or.inl (hc.symm.trans h)
  · exact Or.inr (hc.symm.trans h)

set_option maxHeartbeats 2000000 in
theorem lem_slab_complete {B : Aabb ℝ} {r : Ray ℝ} {lo hi t rad : ℝ} {c : Vec3 ℝ}
    (hdx : r.direction.x ≠ 0) (hdy : r.direction.y ≠ 0) (hdz : r.direction.z ≠ 0)
    (hrad : 0 < rad) (hlot : lo < t) (hthi : t < hi)
    (honsph : ((r.at t).sub c).lengthSquared = rad ^ 2)
    (hbx1 : B.x.min ≤ c.x - rad) (hbx2 : c.x + rad ≤ B.x.max)
    (hby1 : B.y.min ≤ c.y - rad) (hby2 : c.y + rad ≤ B.y.max)
    (hbz1 : B.z.min ≤ c.z - rad) (hbz2 : c.z + rad ≤ B.z.max) :
    B.hit r ⟨lo, hi⟩ = true := by
  have hsum : (r.origin.x + t * r.direction.x - c.x) ^ 2
      + (r.origin.y + t * r.direction.y - c.y) ^ 2
      + (r.origin.z + t * r.direction.z - c.z) ^ 2 = rad ^ 2 := by
    have h0 : ((r.at t).sub c).lengthSquared
        = (r.origin.x + t * r.direction.x - c.x) ^ 2
          + (r.origin.y + t * r.direction.y - c.y) ^ 2
          + (r.origin.z + t * r.direction.z - c.z) ^ 2 := by
      simp only [Ray.at, Vec3.sub, Vec3.add, Vec3.neg, Vec3.smul, Vec3.lengthSquared]
      ring
    rw [← h0]
    exact honsph
  have hsqx : (r.origin.x + t * r.direction.x - c.x - rad) * (r.origin.x + t * r.direction.x - c.x + rad) ≤ 0 := by
    nlinarith [hsum, sq_nonneg (r.origin.y + t * r.direction.y - c.y), sq_nonneg (r.origin.z + t * r.direction.z - c.z)]
  have hpx1 : c.x - rad ≤ r.origin.x + t * r.direction.x := by
    rcases mul_nonpos_iff.mp hsqx with ⟨ha, hb⟩ | ⟨ha, hb⟩ <;> linarith
  have hpx2 : r.origin.x + t * r.direction.x ≤ c.x + rad := by
    rcases mul_nonpos_iff.mp hsqx with ⟨ha, hb⟩ | ⟨ha, hb⟩ <;> linarith
  have hsqy : (r.origin.y + t * r.direction.y - c.y - rad) * (r.origin.y + t * r.direction.y - c.y + rad) ≤ 0 := by
    nlinarith [hsum, sq_nonneg (r.origin.x + t * r.direction.x - c.x), sq_nonneg (r.origin.z + t * r.direction.z - c.z)]
  have hpy1 : c.y - rad ≤ r.origin.y + t * r.direction.y := by
    rcases mul_nonpos_iff.mp hsqy with ⟨ha, hb⟩ | ⟨ha, hb⟩ <;> linarith
  have hpy2 : r.origin.y + t * r.direction.y ≤ c.y + rad := by
    rcases mul_nonpos_iff.mp hsqy with ⟨ha, hb⟩ | ⟨ha, hb⟩ <;> linarith
  have hsqz : (r.origin.z + t * r.direction.z - c.z - rad) * (r.origin.z + t * r.direction.z - c.z + rad) ≤ 0 := by
    nlinarith [hsum, sq_nonneg (r.origin.x + t * r.direction.x - c.x), sq_nonneg (r.origin.y + t * r.direction.y - c.y)]
  have hpz1 : c.z - rad ≤ r.origin.z + t * r.direction.z := by
    rcases mul_nonpos_iff.mp hsqz with ⟨ha, hb⟩ | ⟨ha, hb⟩ <;> linarith
  have hpz2 : r.origin.z + t * r.direction.z ≤ c.z + rad := by
    rcases mul_nonpos_iff.mp hsqz with ⟨ha, hb⟩ | ⟨ha, hb⟩ <;> linarith
  obtain ⟨haxm, haxM, haxeL, haxeU, haxs⟩ :=
    lem_slab_axis hdx
      (show B.x.min ≤ r.origin.x + t * r.direction.x from by linarith)
      (show r.origin.x + t * r.direction.x ≤ B.x.max from by linarith)
  obtain ⟨haym, hayM, hayeL, hayeU, hays⟩ :=
    lem_slab_axis hdy
      (show B.y.min ≤ r.origin.y + t * r.direction.y from by linarith)
      (show r.origin.y + t * r.direction.y ≤ B.y.max from by linarith)
  obtain ⟨hazm, hazM, hazeL, hazeU, hazs⟩ :=
    lem_slab_axis hdz
      (show B.z.min ≤ r.origin.z + t * r.direction.z from by linarith)
      (show r.origin.z + t * r.direction.z ≤ B.z.max from by linarith)
  have hExX : (min ((B.x.min - r.origin.x) * (1 / r.direction.x)) ((B.x.max - r.origin.x) * (1 / r.direction.x)) = t ∨ max ((B.x.min - r.origin.x) * (1 / r.direction.x)) ((B.x.max - r.origin.x) * (1 / r.direction.x)) = t) →
      (r.origin.x + t * r.direction.x - c.x) ^ 2 = rad ^ 2 := by
    intro hev
    rcases hev with hev | hev
    · exact lem_endpoint_extremal (haxeL hev) hbx1 hbx2 hpx1 hpx2
    · exact lem_endpoint_extremal (haxeU hev) hbx1 hbx2 hpx1 hpx2
  have hExY : (min ((B.y.min - r.origin.y) * (1 / r.direction.y)) ((B.y.max - r.origin.y) * (1 / r.direction.y)) = t ∨ max ((B.y.min - r.origin.y) * (1 / r.direction.y)) ((B.y.max - r.origin.y) * (1 / r.direction.y)) = t) →
      (r.origin.y + t * r.direction.y - c.y) ^ 2 = rad ^ 2 := by
    intro hev
    rcases hev with hev | hev
    · exact lem_endpoint_extremal (hayeL hev) hby1 hby2 hpy1 hpy2
    · exact lem_endpoint_extremal (hayeU hev) hby1 hby2 hpy1 hpy2
  have hExZ : (min ((B.z.min - r.origin.z) * (1 / r.direction.z)) ((B.z.max - r.origin.z) * (1 / r.direction.z)) = t ∨ max ((B.z.min - r.origin.z) * (1 / r.direction.z)) ((B.z.max - r.origin.z) * (1 / r.direction.z)) = t) →
      (r.origin.z + t * r.direction.z - c.z) ^ 2 = rad ^ 2 := by
    intro hev
    rcases hev with hev | hev
    · exact lem_endpoint_extremal (hazeL hev) hbz1 hbz2 hpz1 hpz2
    · exact lem_endpoint_extremal (hazeU hev) hbz1 hbz2 hpz1 hpz2
  unfold Aabb.hit
  simp only [lem_slabNarrow_eq]
  split_ifs with h1 h2 h3
  · exfalso
    have hm : max (min ((B.x.min - r.origin.x) * (1 / r.direction.x)) ((B.x.max - r.origin.x) * (1 / r.direction.x))) lo = t :=
      le_antisymm (max_le haxm hlot.le) (le_trans (le_min haxM hthi.le) h1)
    have hM : min (max ((B.x.min - r.origin.x) * (1 / r.direction.x)) ((B.x.max - r.origin.x) * (1 / r.direction.x))) hi = t :=
      le_antisymm (le_trans h1 (max_le haxm hlot.le)) (le_min haxM hthi.le)
    rcases lem_max_eq_or hm with heMn | heLo
    · rcases lem_min_eq_or hM with heMx | heHi
      · exact absurd (haxs (by linarith)) (by rw [heMn, heMx]; exact lt_irrefl t)
      · linarith
    · linarith
  · exfalso
    have hm : max (min ((B.y.min - r.origin.y) * (1 / r.direction.y)) ((B.y.max - r.origin.y) * (1 / r.direction.y))) (max (min ((B.x.min - r.origin.x) * (1 / r.direction.x)) ((B.x.max - r.origin.x) * (1 / r.direction.x))) lo) = t :=
      le_antisymm (max_le haym (max_le haxm hlot.le))
        (le_trans (le_min hayM (le_min haxM hthi.le)) h2)
    have hM : min (max ((B.y.min - r.origin.y) * (1 / r.direction.y)) ((B.y.max - r.origin.y) * (1 / r.direction.y))) (min (max ((B.x.min - r.origin.x) * (1 / r.direction.x)) ((B.x.max - r.origin.x) * (1 / r.direction.x))) hi) = t :=
      le_antisymm (le_trans h2 (max_le haym (max_le haxm hlot.le)))
        (le_min hayM (le_min haxM hthi.le))
    rcases lem_max_eq_or hm with heMnY | hm2
    · rcases lem_min_eq_or hM with heMxY | hM2
      · exact absurd (hays (by linarith)) (by rw [heMnY, heMxY]; exact lt_irrefl t)
      · rcases lem_min_eq_or hM2 with heMxX | heHi
        · have hperm : (r.origin.y + t * r.direction.y - c.y) ^ 2 + (r.origin.x + t * r.direction.x - c.x) ^ 2 + (r.origin.z + t * r.direction.z - c.z) ^ 2 = rad ^ 2 := by linarith [hsum]
          exact lem_two_axis_false (hExY (Or.inl heMnY)) (hExX (Or.inr heMxX)) hperm hrad
        · linarith
    · rcases lem_max_eq_or hm2 with heMnX | heLo
      · rcases lem_min_eq_or hM with heMxY | hM2
        · have hperm : (r.origin.x + t * r.direction.x - c.x) ^ 2 + (r.origin.y + t * r.direction.y - c.y) ^ 2 + (r.origin.z + t * r.direction.z - c.z) ^ 2 = rad ^ 2 := by linarith [hsum]
          exact lem_two_axis_false (hExX (Or.inl heMnX)) (hExY (Or.inr heMxY)) hperm hrad
        · rcases lem_min_eq_or hM2 with heMxX | heHi
          · exact absurd (haxs (by linarith)) (by rw [heMnX, heMxX]; exact lt_irrefl t)
          · linarith
      · linarith
  · exfalso
    have hm : max (min ((B.z.min - r.origin.z) * (1 / r.direction.z)) ((B.z.max - r.origin.z) * (1 / r.direction.z))) (max (min ((B.y.min - r.origin.y) * (1 / r.direction.y)) ((B.y.max - r.origin.y) * (1 / r.direction.y))) (max (min ((B.x.min - r.origin.x) * (1 / r.direction.x)) ((B.x.max - r.origin.x) * (1 / r.direction.x))) lo)) = t :=
      le_antisymm (max_le hazm (max_le haym (max_le haxm hlot.le)))
        (le_trans (le_min hazM (le_min hayM (le_min haxM hthi.le))) h3)
    have hM : min (max ((B.z.min - r.origin.z) * (1 / r.direction.z)) ((B.z.max - r.origin.z) * (1 / r.direction.z))) (min (max ((B.y.min - r.origin.y) * (1 / r.direction.y)) ((B.y.max - r.origin.y) * (1 / r.direction.y))) (min (max ((B.x.min - r.origin.x) * (1 / r.direction.x)) ((B.x.max - r.origin.x) * (1 / r.direction.x))) hi)) = t :=
      le_antisymm (le_trans h3 (max_le hazm (max_le haym (max_le haxm hlot.le))))
        (le_min hazM (le_min hayM (le_min haxM hthi.le)))
    rcases lem_max_eq_or hm with heMnZ | hm2
    · rcases lem_min_eq_or hM with heMxZ | hM2
      · exact absurd (hazs (by linarith)) (by rw [heMnZ, heMxZ]; exact lt_irrefl t)
      · rcases lem_min_eq_or hM2 with heMxY | hM3
        · have hperm : (r.origin.z + t * r.direction.z - c.z) ^ 2 + (r.origin.y + t * r.direction.y - c.y) ^ 2 + (r.origin.x + t * r.direction.x - c.x) ^ 2 = rad ^ 2 := by linarith [hsum]
          exact lem_two_axis_false (hExZ (Or.inl heMnZ)) (hExY (Or.inr heMxY)) hperm hrad
        · rcases lem_min_eq_or hM3 with heMxX | heHi
          · have hperm : (r.origin.z + t * r.direction.z - c.z) ^ 2 + (r.origin.x + t * r.direction.x - c.x) ^ 2 + (r.origin.y + t * r.direction.y - c.y) ^ 2 = rad ^ 2 := by linarith [hsum]
            exact lem_two_axis_false (hExZ (Or.inl heMnZ)) (hExX (Or.inr heMxX)) hperm hrad
          · linarith
    · rcases lem_max_eq_or hm2 with heMnY | hm3
      · rcases lem_min_eq_or hM with heMxZ | hM2
        · have hperm : (r.origin.y + t * r.direction.y - c.y) ^ 2 + (r.origin.z + t * r.direction.z - c.z) ^ 2 + (r.origin.x + t * r.direction.x - c.x) ^ 2 = rad ^ 2 := by linarith [hsum]
          exact lem_two_axis_false (hExY (Or.inl heMnY)) (hExZ (Or.inr heMxZ)) hperm hrad
        · rcases lem_min_eq_or hM2 with heMxY | hM3
          · exact absurd (hays (by linarith)) (by rw [heMnY, heMxY]; exact lt_irrefl t)
          · rcases lem_min_eq_or hM3 with heMxX | heHi
            · have hperm : (r.origin.y + t * r.direction.y - c.y) ^ 2 + (r.origin.x + t * r.direction.x - c.x) ^ 2 + (r.origin.z + t * r.direction.z - c.z) ^ 2 = rad ^ 2 := by linarith [hsum]
              exact lem_two_axis_false (hExY (Or.inl heMnY)) (hExX (Or.inr heMxX)) hperm hrad
            · linarith
      · rcases lem_max_eq_or hm3 with heMnX | heLo
        · rcases lem_min_eq_or hM with heMxZ | hM2
          · have hperm : (r.origin.x + t * r.direction.x - c.x) ^ 2 + (r.origin.z + t * r.direction.z - c.z) ^ 2 + (r.origin.y + t * r.direction.y - c.y) ^ 2 = rad ^ 2 := by linarith [hsum]
            exact lem_two_axis_false (hExX (Or.inl heMnX)) (hExZ (Or.inr heMxZ)) hperm hrad
          · rcases lem_min_eq_or hM2 with heMxY | hM3
            · have hperm : (r.origin.x + t * r.direction.x - c.x) ^ 2 + (r.origin.y + t * r.direction.y - c.y) ^ 2 + (r.origin.z + t * r.direction.z - c.z) ^ 2 = rad ^ 2 := by linarith [hsum]
              exact lem_two_axis_false (hExX (Or.inl heMnX)) (hExY (Or.inr heMxY)) hperm hrad
            · rcases lem_min_eq_or hM3 with heMxX | heHi
              · exact absurd (haxs (by linarith)) (by rw [heMnX, heMxX]; exact lt_irrefl t)
              · linarith
        · linarith
  · rfl

theorem lem_hit_sphere (s : Sphere) (r : Ray ℝ) (I : Interval ℝ) :
    Hittables.hit (.sphere s) r I = s.hit r I := by
  simp only [Hittables.hit]

theorem lem_hit_hitlist (objs : List Hittables) (r : Ray ℝ) (I : Interval ℝ) :
    Hittables.hit (.hitlist objs) r I = hitScan objs r I none := by
  simp only [Hittables.hit]

theorem lem_hit_bvh (left right : Hittables) (bbox : Aabb ℝ) (r : Ray ℝ) (I : Interval ℝ) :
    Hittables.hit (.bvhWrapper left right bbox) r I =
      (if bbox.hit r I then
        (match right.hit r
            ⟨I.min, match left.hit r I with | some item => item.t | none => I.max⟩ with
         | some rec2 => some rec2
         | none => left.hit r I)
      else none) := by
  simp only [Hittables.hit]

theorem lem_hitScan_nil (r : Ray ℝ) (I : Interval ℝ) (acc : Option HitRecord) :
    hitScan [] r I acc = acc := by
  simp only [hitScan]

theorem lem_hitScan_cons (obj : Hittables) (rest : List Hittables) (r : Ray ℝ)
    (I : Interval ℝ) (acc : Option HitRecord) :
    hitScan (obj :: rest) r I acc =
      (match obj.hit r ⟨I.min, match acc with | some rec => rec.t | none => I.max⟩ with
       | some rec => hitScan rest r I (some rec)
       | none => hitScan rest r I acc) := by
  simp only [hitScan]

theorem lem_hitScan_char (r : Ray ℝ) (ha : r.direction.lengthSquared ≠ 0) (lo hi : ℝ) :
    ∀ (objs : List Sphere) (acc : Option HitRecord),
      (∀ a, acc = some a → a.t < hi) →
      ((hitScan (objs.map .sphere) r ⟨lo, hi⟩ acc = none ↔
          acc = none ∧ ∀ s ∈ objs, s.hit r ⟨lo, hi⟩ = none) ∧
       (∀ rec, hitScan (objs.map .sphere) r ⟨lo, hi⟩ acc = some rec →
          (acc = some rec ∨ ∃ s ∈ objs, s.hit r ⟨lo, hi⟩ = some rec) ∧
          (∀ a, acc = some a → rec.t ≤ a.t) ∧
          (∀ s ∈ objs, ∀ b, s.hit r ⟨lo, hi⟩ = some b → rec.t ≤ b.t) ∧
          rec.t < hi)) := by
  intro objs
  induction objs with
  | nil =>
    intro acc hacc
    simp only [List.map_nil, lem_hitScan_nil]
    constructor
    · simp
    · intro rec hrec
      exact ⟨Or.inl hrec, fun a hae => by rw [hrec] at hae; rw [Option.some.inj hae],
        by simp, hacc rec hrec⟩
  | cons s rest IH =>
    intro acc hacc
    simp only [List.map_cons, lem_hitScan_cons, lem_hit_sphere]
    rcases acc with - | a
    · dsimp only
      rcases hs : s.hit r ⟨lo, hi⟩ with - | rec0 <;> dsimp only
      · obtain ⟨ihnone, ihsome⟩ := IH none (by simp)
        constructor
        · rw [ihnone]
          constructor
          · rintro ⟨-, hall⟩
            refine ⟨by trivial, fun s2 hs2 => ?_⟩
            rcases List.mem_cons.mp hs2 with h2 | h2
            · rw [h2]; exact hs
            · exact hall s2 h2
          · rintro ⟨-, hall⟩
            exact ⟨by trivial, fun s2 h2 => hall s2 (List.mem_cons_of_mem s h2)⟩
        · intro rec hrec
          obtain ⟨hsrc, haccmin, helemmin, hbound⟩ := ihsome rec hrec
          refine ⟨?_, by simp, ?_, hbound⟩
          · rcases hsrc with hsrc | ⟨s2, h2, h3⟩
            · cases hsrc
            · exact Or.inr ⟨s2, List.mem_cons_of_mem s h2, h3⟩
          · intro s2 hs2 b hb
            rcases List.mem_cons.mp hs2 with h2 | h2
            · rw [h2] at hb; rw [hb] at hs; cases hs
            · exact helemmin s2 h2 b hb
      · obtain ⟨-, t0, -, ht0eq, hsur, -⟩ := lem_sphere_hit_some ha hs
        have hrec0hi : rec0.t < hi := by rw [ht0eq]; exact hsur.2
        obtain ⟨ihnone, ihsome⟩ := IH (some rec0)
          (fun a2 hae => by rw [← Option.some.inj hae]; exact hrec0hi)
        constructor
        · rw [ihnone]
          constructor
          · rintro ⟨hcon, -⟩
            cases hcon
          · rintro ⟨-, hall⟩
            exact absurd hs (by rw [hall s (List.mem_cons_self s rest)]; simp)
        · intro rec hrec
          obtain ⟨hsrc, haccmin, helemmin, hbound⟩ := ihsome rec hrec
          refine ⟨?_, by simp, ?_, hbound⟩
          · rcases hsrc with hsrc | ⟨s2, h2, h3⟩
            · exact Or.inr ⟨s, List.mem_cons_self s rest, by rw [hs, hsrc]⟩
            · exact Or.inr ⟨s2, List.mem_cons_of_mem s h2, h3⟩
          · intro s2 hs2 b hb
            rcases List.mem_cons.mp hs2 with h2 | h2
            · rw [h2] at hb
              rw [hb] at hs
              rw [Option.some.inj hs]
              exact haccmin rec0 rfl
            · exact helemmin s2 h2 b hb
    · dsimp only
      have hathi : a.t < hi := hacc a rfl
      rcases hs : s.hit r ⟨lo, a.t⟩ with - | rec0 <;> dsimp only
      · obtain ⟨ihnone, ihsome⟩ := IH (some a) hacc
        constructor
        · rw [ihnone]
          constructor
          · rintro ⟨hcon, -⟩
            cases hcon
          · rintro ⟨hcon, -⟩
            cases hcon
        · intro rec hrec
          obtain ⟨hsrc, haccmin, helemmin, hbound⟩ := ihsome rec hrec
          refine ⟨?_, haccmin, ?_, hbound⟩
          · rcases hsrc with hsrc | ⟨s2, h2, h3⟩
            · exact Or.inl hsrc
            · exact Or.inr ⟨s2, List.mem_cons_of_mem s h2, h3⟩
          · intro s2 hs2 b hb
            rcases List.mem_cons.mp hs2 with h2 | h2
            · rw [h2] at hb
              by_cases hlt : b.t < a.t
              · exact absurd (lem_sphere_hit_restrict ha hathi.le hb hlt)
                  (by rw [hs]; simp)
              · push_neg at hlt
                have := haccmin a rfl
                linarith
            · exact helemmin s2 h2 b hb
      · have hwide : s.hit r ⟨lo, hi⟩ = some rec0 := lem_sphere_hit_widen ha hathi.le hs
        obtain ⟨-, t0, -, ht0eq, hsur, -⟩ := lem_sphere_hit_some ha hs
        have hrec0a : rec0.t < a.t := by rw [ht0eq]; exact hsur.2
        obtain ⟨ihnone, ihsome⟩ := IH (some rec0)
          (fun a2 hae => by rw [← Option.some.inj hae]; linarith)
        constructor
        · rw [ihnone]
          constructor
          · rintro ⟨hcon, -⟩
            cases hcon
          · rintro ⟨hcon, -⟩
            cases hcon
        · intro rec hrec
          obtain ⟨hsrc, haccmin, helemmin, hbound⟩ := ihsome rec hrec
          refine ⟨?_, ?_, ?_, hbound⟩
          · rcases hsrc with hsrc | ⟨s2, h2, h3⟩
            · exact Or.inr ⟨s, List.mem_cons_self s rest, by rw [hwide, hsrc]⟩
            · exact Or.inr ⟨s2, List.mem_cons_of_mem s h2, h3⟩
          · intro a2 hae
            rw [← Option.some.inj hae]
            have := haccmin rec0 rfl
            linarith
          · intro s2 hs2 b hb
            rcases List.mem_cons.mp hs2 with h2 | h2
            · rw [h2] at hb
              rw [hb] at hwide
              rw [Option.some.inj hwide]
              exact haccmin rec0 rfl
            · exact helemmin s2 h2 b hb

/-- Spheres at the leaves of a scene tree (specification helper for relating
the BVH to the flat scene).  List nodes occur in built BVH trees only as the
degenerate empty root, so their children are not collected. -/
def leavesOf : Hittables → List Sphere
  | .sphere s => [s]
  | .hitlist _ => []
  | .bvhWrapper left right _ => leavesOf left ++ leavesOf right

/-- Per-axis inclusive box containment (specification helper). -/
def boxContains (outer inner : Aabb ℝ) : Prop :=
  outer.x.min ≤ inner.x.min ∧ inner.x.max ≤ outer.x.max ∧
  outer.y.min ≤ inner.y.min ∧ inner.y.max ≤ outer.y.max ∧
  outer.z.min ≤ inner.z.min ∧ inner.z.max ≤ outer.z.max

/-- Structural invariant of a well-formed BVH tree over spheres
(specification helper): list nodes are empty and every inner node's cached
box contains the bounding box of every sphere below it. -/
def Covers : Hittables → Prop
  | .sphere _ => True
  | .hitlist objs => objs = []
  | .bvhWrapper left right bbox =>
      Covers left ∧ Covers right ∧
      ∀ s ∈ leavesOf (.bvhWrapper left right bbox), boxContains bbox s.bbox

theorem lem_boxContains_trans {a b c : Aabb ℝ} (h1 : boxContains a b)
    (h2 : boxContains b c) : boxContains a c := by
  unfold boxContains at *
  exact ⟨le_trans h1.1 h2.1, le_trans h2.2.1 h1.2.1, le_trans h1.2.2.1 h2.2.2.1,
    le_trans h2.2.2.2.1 h1.2.2.2.1, le_trans h1.2.2.2.2.1 h2.2.2.2.2.1,
    le_trans h2.2.2.2.2.2 h1.2.2.2.2.2⟩

theorem lem_enclose_left (a b : Aabb ℝ) : boxContains (Aabb.newFromBoxes a b) a := by
  unfold boxContains Aabb.newFromBoxes Interval.tightEnclose
  dsimp only
  refine ⟨?_, ?_, ?_, ?_, ?_, ?_⟩ <;> split_ifs <;> linarith

theorem lem_enclose_right (a b : Aabb ℝ) : boxContains (Aabb.newFromBoxes a b) b := by
  unfold boxContains Aabb.newFromBoxes Interval.tightEnclose
  dsimp only
  refine ⟨?_, ?_, ?_, ?_, ?_, ?_⟩ <;> split_ifs <;> linarith

theorem lem_sphere_bbox (s : Sphere) (h : 0 ≤ s.radius) :
    s.bbox.x.min = s.center.x - s.radius ∧ s.bbox.x.max = s.center.x + s.radius ∧
    s.bbox.y.min = s.center.y - s.radius ∧ s.bbox.y.max = s.center.y + s.radius ∧
    s.bbox.z.min = s.center.z - s.radius ∧ s.bbox.z.max = s.center.z + s.radius := by
  unfold Sphere.bbox Aabb.newFromPoints Vec3.sub Vec3.add Vec3.neg
  dsimp only
  rw [if_pos (by linarith : s.center.x + -s.radius ≤ s.center.x + s.radius),
    if_pos (by linarith : s.center.y + -s.radius ≤ s.center.y + s.radius),
    if_pos (by linarith : s.center.z + -s.radius ≤ s.center.z + s.radius)]
  refine ⟨by ring, by ring, by ring, by ring, by ring, by ring⟩

theorem lem_xsq_le_lsq (v : Vec3 ℝ) : v.x ^ 2 ≤ v.lengthSquared := by
  unfold Vec3.lengthSquared
  nlinarith [sq_nonneg v.y, sq_nonneg v.z]

theorem lem_dirx_lsq {r : Ray ℝ} (hdx : r.direction.x ≠ 0) :
    r.direction.lengthSquared ≠ 0 := by
  intro hcon
  have h1 := lem_xsq_le_lsq r.direction
  have h2 : r.direction.x ^ 2 > 0 := by positivity
  rw [hcon] at h1
  linarith

theorem lem_leaf_forces_box {bb : Aabb ℝ} {r : Ray ℝ} {lo hi : ℝ} {s : Sphere}
    {rec : HitRecord} (hdx : r.direction.x ≠ 0) (hdy : r.direction.y ≠ 0)
    (hdz : r.direction.z ≠ 0) (hrad : 0 < s.radius) (hcb : boxContains bb s.bbox)
    (hs : s.hit r ⟨lo, hi⟩ = some rec) : bb.hit r ⟨lo, hi⟩ = true := by
  obtain ⟨-, t, -, -, hsur, honsph⟩ := lem_sphere_hit_some (lem_dirx_lsq hdx) hs
  obtain ⟨hx1, hx2, hy1, hy2, hz1, hz2⟩ := lem_sphere_bbox s hrad.le
  obtain ⟨c1, c2, c3, c4, c5, c6⟩ := hcb
  exact lem_slab_complete hdx hdy hdz hrad hsur.1 hsur.2 honsph
    (by rw [hx1] at c1; exact c1) (by rw [hx2] at c2; exact c2)
    (by rw [hy1] at c3; exact c3) (by rw [hy2] at c4; exact c4)
    (by rw [hz1] at c5; exact c5) (by rw [hz2] at c6; exact c6)

theorem lem_tree_hit_sized (r : Ray ℝ) (hdx : r.direction.x ≠ 0)
    (hdy : r.direction.y ≠ 0) (hdz : r.direction.z ≠ 0) :
    ∀ (n : ℕ) (T : Hittables), sizeOf T ≤ n → Covers T →
    (∀ s ∈ leavesOf T, 0 < s.radius) →
    ∀ lo hi,
      ((T.hit r ⟨lo, hi⟩ = none) ↔ ∀ s ∈ leavesOf T, s.hit r ⟨lo, hi⟩ = none) ∧
      (∀ rec, T.hit r ⟨lo, hi⟩ = some rec →
         (∃ s ∈ leavesOf T, s.hit r ⟨lo, hi⟩ = some rec) ∧
         (∀ s ∈ leavesOf T, ∀ b, s.hit r ⟨lo, hi⟩ = some b → rec.t ≤ b.t)) := by
  have ha := lem_dirx_lsq hdx
  intro n
  induction n with
  | zero =>
    intro T hT
    cases T <;> simp at hT
  | succ n ih =>
    intro T hT
    cases T with
    | sphere s =>
      intro _ _ lo hi
      simp only [lem_hit_sphere, leavesOf]
      refine ⟨⟨?_, ?_⟩, ?_⟩
      · intro h s2 hs2
        rcases List.mem_singleton.mp hs2 with rfl
        exact h
      · intro h
        exact h s (List.mem_singleton_self s)
      · intro rec hrec
        refine ⟨⟨s, List.mem_singleton_self s, hrec⟩, ?_⟩
        intro s2 hs2 b hb
        rcases List.mem_singleton.mp hs2 with rfl
        rw [hrec] at hb
        rw [Option.some.inj hb]
    | hitlist objs =>
      intro hcov _ lo hi
      have hobjs : objs = [] := hcov
      subst hobjs
      simp only [lem_hit_hitlist, lem_hitScan_nil, leavesOf]
      refine ⟨by simp, ?_⟩
      intro rec hrec
      cases hrec
    | bvhWrapper left right bbox =>
      intro hcov hrad lo hi
      obtain ⟨hcl, hcr, hcbox⟩ := hcov
      have hszl : sizeOf left ≤ n := by simp at hT; omega
      have hszr : sizeOf right ≤ n := by simp at hT; omega
      have hradl : ∀ s ∈ leavesOf left, 0 < s.radius := fun s hs =>
        hrad s (by simp only [leavesOf]; exact List.mem_append_left _ hs)
      have hradr : ∀ s ∈ leavesOf right, 0 < s.radius := fun s hs =>
        hrad s (by simp only [leavesOf]; exact List.mem_append_right _ hs)
      rw [lem_hit_bvh]
      simp only [leavesOf]
      by_cases hbb : bbox.hit r ⟨lo, hi⟩
      · rw [if_pos hbb]
        rcases hl : Hittables.hit left r ⟨lo, hi⟩ with - | recL <;> dsimp only
        · rcases hr : Hittables.hit right r ⟨lo, hi⟩ with - | recR <;> dsimp only
          · refine ⟨⟨?_, ?_⟩, ?_⟩
            · intro _ s2 hs2
              rcases List.mem_append.mp hs2 with h2 | h2
              · exact ((ih left hszl hcl hradl lo hi).1.mp hl) s2 h2
              · exact ((ih right hszr hcr hradr lo hi).1.mp hr) s2 h2
            · intro _
              rfl
            · intro rec hrec
              cases hrec
          · refine ⟨⟨?_, ?_⟩, ?_⟩
            · intro hcon
              cases hcon
            · intro hall
              have hnone := (ih right hszr hcr hradr lo hi).1.mpr
                (fun s2 h2 => hall s2 (List.mem_append_right _ h2))
              rw [hr] at hnone
              cases hnone
            · intro rec hrec
              rw [← Option.some.inj hrec]
              obtain ⟨⟨s2, h2, h3⟩, hmin⟩ := (ih right hszr hcr hradr lo hi).2 recR hr
              refine ⟨⟨s2, List.mem_append_right _ h2, h3⟩, ?_⟩
              intro s3 hs3 b hb
              rcases List.mem_append.mp hs3 with h4 | h4
              · rw [(ih left hszl hcl hradl lo hi).1.mp hl s3 h4] at hb
                cases hb
              · exact hmin s3 h4 b hb
        · obtain ⟨⟨sL, hsL, hsLhit⟩, hminL⟩ := (ih left hszl hcl hradl lo hi).2 recL hl
          obtain ⟨-, tL, -, htLeq, hsurL, -⟩ := lem_sphere_hit_some ha hsLhit
          have hLlo : lo < recL.t := by rw [htLeq]; exact hsurL.1
          have hLhi : recL.t < hi := by rw [htLeq]; exact hsurL.2
          rcases hr : Hittables.hit right r ⟨lo, recL.t⟩ with - | recR <;> dsimp only
          · refine ⟨⟨?_, ?_⟩, ?_⟩
            · intro hcon
              cases hcon
            · intro hall
              have hnone := (ih left hszl hcl hradl lo hi).1.mpr
                (fun s2 h2 => hall s2 (List.mem_append_left _ h2))
              rw [hl] at hnone
              cases hnone
            · intro rec hrec
              rw [← Option.some.inj hrec]
              refine ⟨⟨sL, List.mem_append_left _ hsL, hsLhit⟩, ?_⟩
              intro s3 hs3 b hb
              rcases List.mem_append.mp hs3 with h4 | h4
              · exact hminL s3 h4 b hb
              · by_cases hlt : b.t < recL.t
                · have hres := lem_sphere_hit_restrict ha hLhi.le hb hlt
                  rw [((ih right hszr hcr hradr lo recL.t).1.mp hr) s3 h4] at hres
                  cases hres
                · push_neg at hlt
                  exact hlt
          · refine ⟨⟨?_, ?_⟩, ?_⟩
            · intro hcon
              cases hcon
            · intro hall
              have hnone := (ih left hszl hcl hradl lo hi).1.mpr
                (fun s2 h2 => hall s2 (List.mem_append_left _ h2))
              rw [hl] at hnone
              cases hnone
            · intro rec hrec
              rw [← Option.some.inj hrec]
              obtain ⟨⟨s2, h2, h3⟩, hminR⟩ := (ih right hszr hcr hradr lo recL.t).2 recR hr
              obtain ⟨-, tR, -, htReq, hsurR, -⟩ := lem_sphere_hit_some ha h3
              have hRlt : recR.t < recL.t := by rw [htReq]; exact hsurR.2
              refine ⟨⟨s2, List.mem_append_right _ h2,
                lem_sphere_hit_widen ha hLhi.le h3⟩, ?_⟩
              intro s3 hs3 b hb
              rcases List.mem_append.mp hs3 with h4 | h4
              · have hge := hminL s3 h4 b hb
                linarith
              · by_cases hlt : b.t < recL.t
                · exact hminR s3 h4 b (lem_sphere_hit_restrict ha hLhi.le hb hlt)
                · push_neg at hlt
                  linarith
      · rw [if_neg hbb]
        have hcboxl : ∀ s ∈ leavesOf left ++ leavesOf right, boxContains bbox s.bbox := by
          intro s2 hs2
          exact hcbox s2 (by simpa only [leavesOf] using hs2)
        have hallnone : ∀ s ∈ leavesOf left ++ leavesOf right,
            s.hit r ⟨lo, hi⟩ = none := by
          intro s2 hs2
          rcases hs : s2.hit r ⟨lo, hi⟩ with - | rec
          · rfl
          · exact absurd (lem_leaf_forces_box hdx hdy hdz
              (hrad s2 (by simpa only [leavesOf] using hs2)) (hcboxl s2 hs2) hs) hbb
        refine ⟨⟨?_, ?_⟩, ?_⟩
        · intro _
          exact hallnone
        · intro _
          rfl
        · intro rec hrec
          cases hrec

theorem lem_tree_hit (r : Ray ℝ) (hdx : r.direction.x ≠ 0) (hdy : r.direction.y ≠ 0)
    (hdz : r.direction.z ≠ 0) (T : Hittables) (hcov : Covers T)
    (hrad : ∀ s ∈ leavesOf T, 0 < s.radius) (lo hi : ℝ) :
    ((T.hit r ⟨lo, hi⟩ = none) ↔ ∀ s ∈ leavesOf T, s.hit r ⟨lo, hi⟩ = none) ∧
    (∀ rec, T.hit r ⟨lo, hi⟩ = some rec →
       (∃ s ∈ leavesOf T, s.hit r ⟨lo, hi⟩ = some rec) ∧
       (∀ s ∈ leavesOf T, ∀ b, s.hit r ⟨lo, hi⟩ = some b → rec.t ≤ b.t)) :=
  lem_tree_hit_sized r hdx hdy hdz (sizeOf T) T le_rfl hcov hrad lo hi

theorem lem_boxContains_refl (a : Aabb ℝ) : boxContains a a := by
  unfold boxContains
  exact ⟨le_refl _, le_refl _, le_refl _, le_refl _, le_refl _, le_refl _⟩

theorem lem_foldl_contains_init :
    ∀ (bs : List (Aabb ℝ)) (acc : Aabb ℝ),
      boxContains (bs.foldl Aabb.newFromBoxes acc) acc := by
  intro bs
  induction bs with
  | nil => intro acc; exact lem_boxContains_refl acc
  | cons b rest ihb =>
    intro acc
    simp only [List.foldl_cons]
    exact lem_boxContains_trans (ihb (Aabb.newFromBoxes acc b)) (lem_enclose_left acc b)

theorem lem_foldl_contains_mem :
    ∀ (bs : List (Aabb ℝ)) (acc b : Aabb ℝ), b ∈ bs →
      boxContains (bs.foldl Aabb.newFromBoxes acc) b := by
  intro bs
  induction bs with
  | nil => intro acc b hb; cases hb
  | cons hd rest ihb =>
    intro acc b hb
    simp only [List.foldl_cons]
    rcases List.mem_cons.mp hb with rfl | hb2
    · exact lem_boxContains_trans (lem_foldl_contains_init rest (Aabb.newFromBoxes acc b))
        (lem_enclose_right acc b)
    · exact ihb (Aabb.newFromBoxes acc hd) b hb2

theorem lem_encloseBoxes_mem {bs : List (Aabb ℝ)} {b : Aabb ℝ} (hb : b ∈ bs) :
    boxContains (encloseBoxes bs) b := by
  rcases bs with - | ⟨hd, rest⟩
  · cases hb
  · simp only [encloseBoxes]
    rcases List.mem_cons.mp hb with rfl | hb2
    · exact lem_foldl_contains_init rest b
    · exact lem_foldl_contains_mem rest hd b hb2

theorem lem_boundingBox_sphere (s : Sphere) :
    (Hittables.sphere s).boundingBox = s.bbox := rfl

theorem lem_helpGenerate_one (a : Hittables) :
    helpGenerate [a] = .bvhWrapper a a (encloseBoxes [a.boundingBox]) := by
  simp only [helpGenerate]

theorem lem_helpGenerate_two (a b : Hittables) :
    helpGenerate [a, b] = .bvhWrapper a b (encloseBoxes [a.boundingBox, b.boundingBox]) := by
  simp only [helpGenerate]

theorem lem_helpGenerate_cons3 (a b c : Hittables) (rest : List Hittables) :
    helpGenerate (a :: b :: c :: rest) =
      .bvhWrapper
        (helpGenerate (((a :: b :: c :: rest).mergeSort
          (boxCompareLe (encloseBoxes ((a :: b :: c :: rest).map
            Hittables.boundingBox)).longestAxis)).take ((a :: b :: c :: rest).length / 2)))
        (helpGenerate (((a :: b :: c :: rest).mergeSort
          (boxCompareLe (encloseBoxes ((a :: b :: c :: rest).map
            Hittables.boundingBox)).longestAxis)).drop ((a :: b :: c :: rest).length / 2)))
        (encloseBoxes ((a :: b :: c :: rest).map Hittables.boundingBox)) := by
  simp only [helpGenerate]

theorem lem_helpGenerate_good :
    ∀ (n : ℕ) (objs : List Hittables), objs.length ≤ n → objs ≠ [] →
      (∀ o ∈ objs, ∃ s : Sphere, o = .sphere s) →
      ∃ l rr bb, helpGenerate objs = .bvhWrapper l rr bb ∧
        Covers (.bvhWrapper l rr bb) ∧
        (∀ s, s ∈ leavesOf (.bvhWrapper l rr bb) ↔ Hittables.sphere s ∈ objs) := by
  intro n
  induction n with
  | zero =>
    intro objs hlen hne _
    rcases objs with - | ⟨a, rest⟩
    · exact absurd rfl hne
    · simp at hlen
  | succ n ih =>
    intro objs hlen hne hsp
    rcases objs with - | ⟨a, - | ⟨b, - | ⟨c, rest⟩⟩⟩
    · exact absurd rfl hne
    · obtain ⟨sa, rfl⟩ := hsp a (by simp)
      refine ⟨_, _, _, lem_helpGenerate_one _, ?_, ?_⟩
      · refine ⟨trivial, trivial, ?_⟩
        intro s2 hs2
        simp only [leavesOf, List.mem_append, List.mem_singleton] at hs2
        rcases hs2 with rfl | rfl <;>
        · show boxContains (encloseBoxes [(Hittables.sphere s2).boundingBox]) s2.bbox
          simp only [lem_boundingBox_sphere]
          exact lem_encloseBoxes_mem (by simp)
      · intro s2
        simp [leavesOf]
    · obtain ⟨sa, rfl⟩ := hsp a (by simp)
      obtain ⟨sb, rfl⟩ := hsp b (by simp)
      refine ⟨_, _, _, lem_helpGenerate_two _ _, ?_, ?_⟩
      · refine ⟨trivial, trivial, ?_⟩
        intro s2 hs2
        simp only [leavesOf, List.mem_append, List.mem_singleton] at hs2
        rcases hs2 with rfl | rfl
        · show boxContains (encloseBoxes [(Hittables.sphere s2).boundingBox,
            (Hittables.sphere sb).boundingBox]) s2.bbox
          simp only [lem_boundingBox_sphere]
          exact lem_encloseBoxes_mem (by simp)
        · show boxContains (encloseBoxes [(Hittables.sphere sa).boundingBox,
            (Hittables.sphere s2).boundingBox]) s2.bbox
          simp only [lem_boundingBox_sphere]
          exact lem_encloseBoxes_mem (by simp)
      · intro s2
        simp [leavesOf]
    · set all := a :: b :: c :: rest with hall
      set srt := all.mergeSort (boxCompareLe (encloseBoxes (all.map
        Hittables.boundingBox)).longestAxis) with hsrt
      have hperm : srt.Perm all := List.mergeSort_perm all _
      have hsrtlen : srt.length = all.length := hperm.length_eq
      have halllen : 3 ≤ all.length := by simp [hall]
      set mid := all.length / 2 with hmid
      have hmid1 : 1 ≤ mid := by omega
      have hmidlt : mid < all.length := by omega
      have hspsrt : ∀ o ∈ srt, ∃ s : Sphere, o = .sphere s := fun o ho =>
        hsp o (hperm.mem_iff.mp ho)
      have htlen : (srt.take mid).length = mid := by
        rw [List.length_take]
        omega
      have hdlen : (srt.drop mid).length = all.length - mid := by
        rw [List.length_drop]
        omega
      have htake_ne : srt.take mid ≠ [] := by
        intro hcon
        rw [hcon] at htlen
        simp at htlen
        omega
      have hdrop_ne : srt.drop mid ≠ [] := by
        intro hcon
        rw [hcon] at hdlen
        simp at hdlen
        omega
      have hsp_take : ∀ o ∈ srt.take mid, ∃ s : Sphere, o = .sphere s := fun o ho =>
        hspsrt o (List.mem_of_mem_take ho)
      have hsp_drop : ∀ o ∈ srt.drop mid, ∃ s : Sphere, o = .sphere s := fun o ho =>
        hspsrt o (List.mem_of_mem_drop ho)
      have hlen_take : (srt.take mid).length ≤ n := by omega
      have hlen_drop : (srt.drop mid).length ≤ n := by
        rw [hdlen]
        omega
      obtain ⟨l1, r1, bb1, heq1, hcov1, hiff1⟩ := ih (srt.take mid) hlen_take htake_ne hsp_take
      obtain ⟨l2, r2, bb2, heq2, hcov2, hiff2⟩ := ih (srt.drop mid) hlen_drop hdrop_ne hsp_drop
      refine ⟨_, _, _, lem_helpGenerate_cons3 a b c rest, ?_, ?_⟩
      · refine ⟨?_, ?_, ?_⟩
        · rw [← hall, ← hsrt, ← hmid, heq1]
          exact hcov1
        · rw [← hall, ← hsrt, ← hmid, heq2]
          exact hcov2
        · intro s2 hs2
          simp only [leavesOf, List.mem_append] at hs2
          have hmem : Hittables.sphere s2 ∈ all := by
            rcases hs2 with hs2 | hs2
            · rw [← hall, ← hsrt, ← hmid, heq1] at hs2
              exact hperm.mem_iff.mp (List.mem_of_mem_take ((hiff1 s2).mp hs2))
            · rw [← hall, ← hsrt, ← hmid, heq2] at hs2
              exact hperm.mem_iff.mp (List.mem_of_mem_drop ((hiff2 s2).mp hs2))
          have hbbmem : s2.bbox ∈ all.map Hittables.boundingBox := by
            rw [← lem_boundingBox_sphere s2]
            exact List.mem_map_of_mem _ hmem
          exact lem_encloseBoxes_mem hbbmem
      · intro s2
        simp only [leavesOf, List.mem_append]
        rw [← hall, ← hsrt, ← hmid, heq1, heq2]
        rw [hiff1 s2, hiff2 s2]
        constructor
        · rintro (h2 | h2)
          · exact hperm.mem_iff.mp (List.mem_of_mem_take h2)
          · exact hperm.mem_iff.mp (List.mem_of_mem_drop h2)
        · intro h2
          have h3 : Hittables.sphere s2 ∈ srt.take mid ++ srt.drop mid := by
            rw [List.take_append_drop]
            exact hperm.mem_iff.mpr h2
          exact List.mem_append.mp h3

theorem lem_covers_self_box (T : Hittables) (hcov : Covers T) :
    ∀ s ∈ leavesOf T, boxContains T.boundingBox s.bbox := by
  intro s hs
  cases T with
  | sphere s2 =>
    simp only [leavesOf, List.mem_singleton] at hs
    subst hs
    exact lem_boxContains_refl _
  | hitlist objs =>
    simp [leavesOf] at hs
  | bvhWrapper left right bbox =>
    exact hcov.2.2 s hs

theorem lem_newFromVec_good (objs : List Hittables) (hne : objs ≠ [])
    (hsp : ∀ o ∈ objs, ∃ s : Sphere, o = .sphere s) :
    ∃ l rr bb, newFromVec objs = .bvhWrapper l rr bb ∧
      Covers (.bvhWrapper l rr bb) ∧
      (∀ s, s ∈ leavesOf (.bvhWrapper l rr bb) ↔ Hittables.sphere s ∈ objs) := by
  obtain ⟨l, rr, bb, heq, hcov, hiff⟩ :=
    lem_helpGenerate_good objs.length objs le_rfl hne hsp
  refine ⟨l, rr, Aabb.newFromBoxes l.boundingBox rr.boundingBox, ?_, ?_, ?_⟩
  · unfold newFromVec
    rw [heq]
  · obtain ⟨hcl, hcr, -⟩ := hcov
    refine ⟨hcl, hcr, ?_⟩
    intro s hs
    simp only [leavesOf, List.mem_append] at hs
    show boxContains (Aabb.newFromBoxes l.boundingBox rr.boundingBox) s.bbox
    rcases hs with hs | hs
    · exact lem_boxContains_trans (lem_enclose_left _ _) (lem_covers_self_box l hcl s hs)
    · exact lem_boxContains_trans (lem_enclose_right _ _) (lem_covers_self_box rr hcr s hs)
  · intro s
    rw [← hiff s]
    simp only [leavesOf, List.mem_append]

theorem lem_hidden_hit_none {s : Sphere} (h : s.hide = true) (r : Ray ℝ)
    (I : Interval ℝ) : s.hit r I = none := by
  simp [Sphere.hit, h]

theorem lem_mem_visible (scene : List Sphere) (s : Sphere) :
    (Hittables.sphere s ∈ (scene.map Hittables.sphere).filter isVisible) ↔
      (s ∈ scene ∧ s.hide = false) := by
  simp [List.mem_filter, List.mem_map, isVisible]

/-- Counterexample for C1: the BVH-accelerated hit does not always equal the
linear scan.  A radius-zero sphere (accepted by Sphere::new, whose guard is
radius ≥ 0) has a degenerate bounding box, and the slab test rejects every
ray against it because the narrowed interval collapses to a point, which the
source counts as empty; the linear scan still reports the tangential hit. -/
theorem c1_bvh_matches_linear_scan_counterexample :
    ∃ (s : Sphere) (r : Ray ℝ) (I : Interval ℝ),
      Sphere.new s.center s.radius s.mat = some s ∧
      Hittables.hit (newWrapper [Hittables.sphere s]) r I = none ∧
      Hittables.hit (Hittables.hitlist [Hittables.sphere s]) r I ≠ none := by
  refine ⟨⟨0, false, ⟨1, 2, 2⟩, 0,
      Materials.lambertian ⟨Textures.solidColor ⟨1/2, 1/2, 1/2⟩, 1⟩⟩,
    ⟨⟨0, 0, 0⟩, ⟨1, 2, 2⟩, 0⟩, ⟨1/1000, 100⟩, ?_, ?_, ?_⟩
  · norm_num [Sphere.new]
  · rw [show newWrapper [Hittables.sphere ⟨0, false, ⟨1, 2, 2⟩, 0,
        Materials.lambertian ⟨Textures.solidColor ⟨1/2, 1/2, 1/2⟩, 1⟩⟩] =
        Hittables.bvhWrapper
          (Hittables.sphere ⟨0, false, ⟨1, 2, 2⟩, 0,
            Materials.lambertian ⟨Textures.solidColor ⟨1/2, 1/2, 1/2⟩, 1⟩⟩)
          (Hittables.sphere ⟨0, false, ⟨1, 2, 2⟩, 0,
            Materials.lambertian ⟨Textures.solidColor ⟨1/2, 1/2, 1/2⟩, 1⟩⟩)
          (Aabb.newFromBoxes
            (Sphere.bbox ⟨0, false, ⟨1, 2, 2⟩, 0,
              Materials.lambertian ⟨Textures.solidColor ⟨1/2, 1/2, 1/2⟩, 1⟩⟩)
            (Sphere.bbox ⟨0, false, ⟨1, 2, 2⟩, 0,
              Materials.lambertian ⟨Textures.solidColor ⟨1/2, 1/2, 1/2⟩, 1⟩⟩)) from by
      simp [newWrapper, isVisible, newFromVec, lem_helpGenerate_one, encloseBoxes,
        Hittables.boundingBox]]
    rw [lem_hit_bvh]
    have hbb : Aabb.hit
        (Aabb.newFromBoxes
          (Sphere.bbox ⟨0, false, ⟨1, 2, 2⟩, 0,
            Materials.lambertian ⟨Textures.solidColor ⟨1/2, 1/2, 1/2⟩, 1⟩⟩)
          (Sphere.bbox ⟨0, false, ⟨1, 2, 2⟩, 0,
            Materials.lambertian ⟨Textures.solidColor ⟨1/2, 1/2, 1/2⟩, 1⟩⟩))
        ⟨⟨0, 0, 0⟩, ⟨1, 2, 2⟩, 0⟩ ⟨1/1000, 100⟩ = false := by
      norm_num [Aabb.hit, slabNarrow, Aabb.newFromBoxes, Interval.tightEnclose,
        Sphere.bbox, Aabb.newFromPoints, Vec3.sub, Vec3.add, Vec3.neg]
    rw [hbb]
    simp
  · rw [lem_hit_hitlist]
    norm_num [hitScan, lem_hit_sphere, Sphere.hit, Vec3.sub, Vec3.add, Vec3.neg,
      Vec3.dot, Vec3.lengthSquared, Interval.surrounds, Real.sqrt_zero]
    exact Option.some_ne_none _

/-- Claim C1 (amended): over scenes of spheres with strictly positive radii
and rays with all three direction components nonzero, the hit of the BVH
built by new_wrapper from the scene list and the hit of the brute-force
linear list scan agree exactly on whether a hit exists and on the ray
parameter t of the returned hit; the full records agree as well whenever
records of equal t found in the interval are unique (without that condition
the two sides may return different primitives tied at the same t). -/
theorem c1_bvh_matches_linear_scan (scene : List Sphere) (r : Ray ℝ) (lo hi : ℝ)
    (hdx : r.direction.x ≠ 0) (hdy : r.direction.y ≠ 0) (hdz : r.direction.z ≠ 0)
    (hrad : ∀ s ∈ scene, 0 < s.radius) :
    (Hittables.hit (newWrapper (scene.map Hittables.sphere)) r ⟨lo, hi⟩).map HitRecord.t =
      (Hittables.hit (Hittables.hitlist (scene.map Hittables.sphere)) r ⟨lo, hi⟩).map
        HitRecord.t ∧
    ((∀ s1 ∈ scene, ∀ s2 ∈ scene, ∀ b1 b2, s1.hit r ⟨lo, hi⟩ = some b1 →
        s2.hit r ⟨lo, hi⟩ = some b2 → b1.t = b2.t → b1 = b2) →
      Hittables.hit (newWrapper (scene.map Hittables.sphere)) r ⟨lo, hi⟩ =
        Hittables.hit (Hittables.hitlist (scene.map Hittables.sphere)) r ⟨lo, hi⟩) := by
  have ha := lem_dirx_lsq hdx
  obtain ⟨hlnone, hlsome⟩ := lem_hitScan_char r ha lo hi scene none (by simp)
  rw [lem_hit_hitlist]
  by_cases hemp : ((scene.map Hittables.sphere).filter isVisible).isEmpty
  · have hwrap : newWrapper (scene.map Hittables.sphere) = Hittables.hitlist [] := by
      unfold newWrapper
      simp only []
      rw [if_pos hemp]
    have hhid : ∀ s ∈ scene, s.hide = true := by
      intro s hs
      have hnil : (scene.map Hittables.sphere).filter isVisible = [] :=
        List.isEmpty_iff.mp hemp
      by_contra hcon
      have hvis : Hittables.sphere s ∈ (scene.map Hittables.sphere).filter isVisible :=
        (lem_mem_visible scene s).mpr ⟨hs, by simpa using hcon⟩
      rw [hnil] at hvis
      cases hvis
    have hlin : hitScan (scene.map Hittables.sphere) r ⟨lo, hi⟩ none = none :=
      hlnone.mpr ⟨rfl, fun s hs => lem_hidden_hit_none (hhid s hs) r _⟩
    rw [hwrap, lem_hit_hitlist, lem_hitScan_nil, hlin]
    exact ⟨rfl, fun _ => rfl⟩
  · have hvne : (scene.map Hittables.sphere).filter isVisible ≠ [] := fun hcon =>
      hemp (List.isEmpty_iff.mpr hcon)
    have hsp : ∀ o ∈ (scene.map Hittables.sphere).filter isVisible,
        ∃ s : Sphere, o = .sphere s := by
      intro o ho
      have hom := List.mem_of_mem_filter ho
      obtain ⟨s, -, rfl⟩ := List.mem_map.mp hom
      exact ⟨s, rfl⟩
    obtain ⟨l, rr, bb, heqT, hcov, hiff⟩ := lem_newFromVec_good _ hvne hsp
    have hwrap : newWrapper (scene.map Hittables.sphere) =
        Hittables.bvhWrapper l rr bb := by
      unfold newWrapper
      simp only []
      rw [if_neg hemp]
      exact heqT
    have hmem : ∀ s : Sphere, s ∈ leavesOf (Hittables.bvhWrapper l rr bb) ↔
        (s ∈ scene ∧ s.hide = false) := fun s => (hiff s).trans (lem_mem_visible scene s)
    have hradT : ∀ s ∈ leavesOf (Hittables.bvhWrapper l rr bb), 0 < s.radius :=
      fun s hs => hrad s ((hmem s).mp hs).1
    obtain ⟨hbnone, hbsome⟩ := lem_tree_hit r hdx hdy hdz _ hcov hradT lo hi
    rw [hwrap]
    rcases hB : Hittables.hit (Hittables.bvhWrapper l rr bb) r ⟨lo, hi⟩ with - | recB <;>
      rcases hL : hitScan (scene.map Hittables.sphere) r ⟨lo, hi⟩ none with - | recL
    · exact ⟨rfl, fun _ => rfl⟩
    · exfalso
      obtain ⟨hsrcL, -, -, -⟩ := hlsome recL hL
      rcases hsrcL with hcon | ⟨sL, hsL, hsLhit⟩
      · cases hcon
      · have hhide : sL.hide = false := by
          cases hh : sL.hide
          · rfl
          · rw [lem_hidden_hit_none hh r _] at hsLhit
            cases hsLhit
        have hleaf : sL ∈ leavesOf (Hittables.bvhWrapper l rr bb) :=
          (hmem sL).mpr ⟨hsL, hhide⟩
        have hnone := hbnone.mp hB sL hleaf
        rw [hnone] at hsLhit
        cases hsLhit
    · exfalso
      obtain ⟨⟨sB, hsB, hsBhit⟩, -⟩ := hbsome recB hB
      have hnone := (hlnone.mp hL).2 sB ((hmem sB).mp hsB).1
      rw [hnone] at hsBhit
      cases hsBhit
    · obtain ⟨⟨sB, hsB, hsBhit⟩, hminB⟩ := hbsome recB hB
      obtain ⟨hsrcL, -, hminL, -⟩ := hlsome recL hL
      rcases hsrcL with hcon | ⟨sL, hsL, hsLhit⟩
      · cases hcon
      · have hsBscene : sB ∈ scene := ((hmem sB).mp hsB).1
        have h1 : recL.t ≤ recB.t := hminL sB hsBscene recB hsBhit
        have hhide : sL.hide = false := by
          cases hh : sL.hide
          · rfl
          · rw [lem_hidden_hit_none hh r _] at hsLhit
            cases hsLhit
        have h2 : recB.t ≤ recL.t :=
          hminB sL ((hmem sL).mpr ⟨hsL, hhide⟩) recL hsLhit
        have hteq : recB.t = recL.t := le_antisymm h2 h1
        constructor
        · simp [Option.map, hteq]
        · intro huniq
          exact congrArg some
            (huniq sB hsBscene sL hsL recB recL hsBhit hsLhit hteq)

/-- Witness for C1 (amended): a one-sphere scene with positive radius and a
ray with nonzero direction components satisfies the hypotheses, so the BVH
and the linear scan agree on it. -/
theorem c1_bvh_matches_linear_scan_witness :
    (∀ s ∈ [(⟨0, false, ⟨2, 4, 4⟩, 3,
        Materials.lambertian ⟨Textures.solidColor ⟨1/2, 1/2, 1/2⟩, 1⟩⟩ : Sphere)],
      0 < s.radius) ∧
    (Hittables.hit (newWrapper ([(⟨0, false, ⟨2, 4, 4⟩, 3,
        Materials.lambertian ⟨Textures.solidColor ⟨1/2, 1/2, 1/2⟩, 1⟩⟩ : Sphere)].map
          Hittables.sphere)) ⟨⟨0, 0, 0⟩, ⟨1, 2, 2⟩, 0⟩ ⟨1/1000, 100⟩).map HitRecord.t =
      (Hittables.hit (Hittables.hitlist ([(⟨0, false, ⟨2, 4, 4⟩, 3,
        Materials.lambertian ⟨Textures.solidColor ⟨1/2, 1/2, 1/2⟩, 1⟩⟩ : Sphere)].map
          Hittables.sphere)) ⟨⟨0, 0, 0⟩, ⟨1, 2, 2⟩, 0⟩ ⟨1/1000, 100⟩).map HitRecord.t :=
  ⟨by
    intro s hs
    rw [List.mem_singleton] at hs
    subst hs
    norm_num,
   (c1_bvh_matches_linear_scan
      [⟨0, false, ⟨2, 4, 4⟩, 3,
        Materials.lambertian ⟨Textures.solidColor ⟨1/2, 1/2, 1/2⟩, 1⟩⟩]
      ⟨⟨0, 0, 0⟩, ⟨1, 2, 2⟩, 0⟩ (1/1000) 100
      (by norm_num) (by norm_num) (by norm_num)
      (by
        intro s hs
        rw [List.mem_singleton] at hs
        subst hs
        norm_num)).1⟩

/-- Claim C3: a list's hit is the nearest valid hit of its children.  For a
ray with nonzero squared direction length, HitList::hit over sphere children
returns none exactly when every child misses the query interval, and a
returned record is a child's hit on the full interval, has the minimal ray
parameter t among all children's hits there, and its t lies strictly inside
the interval. -/
theorem c3_hitlist_nearest_hit (objs : List Sphere) (r : Ray ℝ)
    (ha : r.direction.lengthSquared ≠ 0) (lo hi : ℝ) :
    (Hittables.hit (Hittables.hitlist (objs.map Hittables.sphere)) r ⟨lo, hi⟩ = none ↔
      ∀ s ∈ objs, s.hit r ⟨lo, hi⟩ = none) ∧
    (∀ rec, Hittables.hit (Hittables.hitlist (objs.map Hittables.sphere)) r
        ⟨lo, hi⟩ = some rec →
      (∃ s ∈ objs, s.hit r ⟨lo, hi⟩ = some rec) ∧
      (∀ s ∈ objs, ∀ b, s.hit r ⟨lo, hi⟩ = some b → rec.t ≤ b.t) ∧
      Interval.surrounds ⟨lo, hi⟩ rec.t) := by
  obtain ⟨hlnone, hlsome⟩ := lem_hitScan_char r ha lo hi objs none (by simp)
  rw [lem_hit_hitlist]
  constructor
  · rw [hlnone]
    simp
  · intro rec hrec
    obtain ⟨hsrc, -, hmin, -⟩ := hlsome rec hrec
    rcases hsrc with hcon | ⟨s, hs, hshit⟩
    · cases hcon
    · obtain ⟨-, t0, -, ht0, hsur, -⟩ := lem_sphere_hit_some ha hshit
      refine ⟨⟨s, hs, hshit⟩, hmin, ?_⟩
      rw [ht0]
      exact hsur

/-- Witness for C3: a concrete one-sphere list and a ray with nonzero
direction satisfy the hypothesis, so the scan's characterisation holds. -/
theorem c3_hitlist_nearest_hit_witness :
    ((⟨⟨0, 0, 0⟩, ⟨1, 2, 2⟩, 0⟩ : Ray ℝ).direction.lengthSquared ≠ 0) ∧
    (Hittables.hit (Hittables.hitlist ([(⟨0, false, ⟨2, 4, 4⟩, 3,
        Materials.lambertian ⟨Textures.solidColor ⟨1/2, 1/2, 1/2⟩, 1⟩⟩ : Sphere)].map
          Hittables.sphere)) ⟨⟨0, 0, 0⟩, ⟨1, 2, 2⟩, 0⟩ ⟨1/1000, 100⟩ = none ↔
      ∀ s ∈ [(⟨0, false, ⟨2, 4, 4⟩, 3,
          Materials.lambertian ⟨Textures.solidColor ⟨1/2, 1/2, 1/2⟩, 1⟩⟩ : Sphere)],
        s.hit ⟨⟨0, 0, 0⟩, ⟨1, 2, 2⟩, 0⟩ ⟨1/1000, 100⟩ = none) :=
  ⟨by norm_num [Vec3.lengthSquared],
   (c3_hitlist_nearest_hit
      [⟨0, false, ⟨2, 4, 4⟩, 3,
        Materials.lambertian ⟨Textures.solidColor ⟨1/2, 1/2, 1/2⟩, 1⟩⟩]
      ⟨⟨0, 0, 0⟩, ⟨1, 2, 2⟩, 0⟩ (by norm_num [Vec3.lengthSquared]) (1/1000) 100).1⟩

/-- Metal scattering (materials/metal.rs, Metal.scatter): reflect the
incoming direction about the hit normal, normalize the reflection, add fuzz
times a random unit vector, and return a ray from the hit point with that
direction when it points out of the surface.  The random unit vector the
source draws internally is passed as the randUnit argument, and the albedo
written unconditionally into the attenuation out-parameter is returned as
the first component of the pair. -/
def Metal.scatter (m : Metal) (rIn : Ray ℝ) (hr : HitRecord) (randUnit : Vec3 ℝ) :
    Color ℝ × Option (Ray ℝ) :=
  let reflected := Vec3.reflect rIn.direction hr.normal
  let reflected2 := reflected.unitVector.add (Vec3.smul m.fuzz randUnit)
  let scattered : Ray ℝ := ⟨hr.loc, reflected2, rIn.tm⟩
  let attenuation := m.albedo
  if scattered.direction.dot hr.normal > 0 then (attenuation, some scattered)
  else (attenuation, none)

theorem lem_reflect_dot_unit (v n : Vec3 ℝ) (hn : n.lengthSquared = 1) :
    (v.reflect n).dot n = -(v.dot n) := by
  obtain ⟨a, b, c⟩ := v
  obtain ⟨p, q, r⟩ := n
  simp only [Vec3.reflect, Vec3.sub, Vec3.add, Vec3.neg, Vec3.smul, Vec3.dot,
    Vec3.lengthSquared] at *
  linear_combination (-2 * (a * p + b * q + c * r)) * hn

theorem lem_reflect_lsq_unit (v n : Vec3 ℝ) (hn : n.lengthSquared = 1) :
    (v.reflect n).lengthSquared = v.lengthSquared := by
  obtain ⟨a, b, c⟩ := v
  obtain ⟨p, q, r⟩ := n
  simp only [Vec3.reflect, Vec3.sub, Vec3.add, Vec3.neg, Vec3.smul, Vec3.dot,
    Vec3.lengthSquared] at *
  linear_combination (4 * (a * p + b * q + c * r) ^ 2) * hn

/-- Counterexample for C4: the scattered direction is not normalized after
the fuzz perturbation.  With fuzz 1 (accepted by Metal::new), a unit normal
and a unit random vector, the source normalizes the reflection first and
then adds the perturbation, returning Some of a ray whose direction has
squared length 16/5 rather than 1. -/
theorem c4_metal_scatter_counterexample :
    Metal.new ⟨9/10, 9/10, 9/10⟩ 1 = some ⟨⟨9/10, 9/10, 9/10⟩, 1⟩ ∧
    (⟨1, 0, 0⟩ : Vec3 ℝ).lengthSquared = 1 ∧
    (⟨0, 1, 0⟩ : Vec3 ℝ).lengthSquared = 1 ∧
    ∃ r', (Metal.scatter ⟨⟨9/10, 9/10, 9/10⟩, 1⟩ ⟨⟨0, 0, 0⟩, ⟨3, -4, 0⟩, 0⟩
        ⟨⟨0, 0, 0⟩, ⟨0, 1, 0⟩, Materials.metal ⟨⟨9/10, 9/10, 9/10⟩, 1⟩, 1, 0, 0, true⟩
        ⟨1, 0, 0⟩).2 = some r' ∧
      r'.direction.lengthSquared ≠ 1 := by
  have h25 : Real.sqrt 25 = 5 := by
    rw [show (25 : ℝ) = 5 ^ 2 by norm_num]
    exact Real.sqrt_sq (by norm_num)
  refine ⟨by norm_num [Metal.new], by norm_num [Vec3.lengthSquared],
    by norm_num [Vec3.lengthSquared], ⟨⟨0, 0, 0⟩, ⟨8/5, 4/5, 0⟩, 0⟩, ?_, ?_⟩
  · simp only [Metal.scatter]
    norm_num [Vec3.reflect, Vec3.dot, Vec3.smul, Vec3.sub, Vec3.add, Vec3.neg,
      Vec3.unitVector, Vec3.length, Vec3.lengthSquared, h25]
  · norm_num [Vec3.lengthSquared]

/-- Claim C4 (amended): Metal::scatter reflects the incoming direction about
the surface normal, normalizes the reflection, and then adds fuzz times the
random unit vector without re-normalizing; the attenuation is always the
albedo; Some is returned exactly when the perturbed direction makes a
positive dot product with the normal (None otherwise); with fuzz zero the
returned direction is exactly the normalized mirror reflection, and against
a unit normal the reflection flips the normal component of the incoming
direction while preserving its length — angle of incidence equals angle of
reflection. -/
theorem c4_metal_scatter (m : Metal) (rIn : Ray ℝ) (hr : HitRecord)
    (randUnit : Vec3 ℝ) :
    (m.scatter rIn hr randUnit).1 = m.albedo ∧
    ((m.scatter rIn hr randUnit).2 = none ↔
      ((Vec3.reflect rIn.direction hr.normal).unitVector.add
        (Vec3.smul m.fuzz randUnit)).dot hr.normal ≤ 0) ∧
    (∀ r', (m.scatter rIn hr randUnit).2 = some r' →
      r'.origin = hr.loc ∧ r'.tm = rIn.tm ∧
      r'.direction = (Vec3.reflect rIn.direction hr.normal).unitVector.add
        (Vec3.smul m.fuzz randUnit)) ∧
    (m.fuzz = 0 → ∀ r', (m.scatter rIn hr randUnit).2 = some r' →
      r'.direction = (Vec3.reflect rIn.direction hr.normal).unitVector) ∧
    (hr.normal.lengthSquared = 1 →
      (Vec3.reflect rIn.direction hr.normal).dot hr.normal =
        -(rIn.direction.dot hr.normal) ∧
      (Vec3.reflect rIn.direction hr.normal).lengthSquared =
        rIn.direction.lengthSquared) := by
  have hzero : ∀ v : Vec3 ℝ, v.add (Vec3.smul 0 randUnit) = v := by
    intro v
    obtain ⟨a, b, c⟩ := v
    simp [Vec3.add, Vec3.smul]
  unfold Metal.scatter
  simp only []
  split_ifs with h
  · refine ⟨rfl, ?_, ?_, ?_, fun hn =>
      ⟨lem_reflect_dot_unit _ _ hn, lem_reflect_lsq_unit _ _ hn⟩⟩
    · exact iff_of_false (by simp) (not_le.mpr h)
    · intro r' hr'
      rw [← Option.some.inj hr']
      exact ⟨rfl, rfl, rfl⟩
    · intro hf r' hr'
      rw [← Option.some.inj hr']
      show (Vec3.reflect rIn.direction hr.normal).unitVector.add
        (Vec3.smul m.fuzz randUnit) = _
      rw [hf, hzero]
  · refine ⟨rfl, iff_of_true rfl (not_lt.mp h), ?_, ?_, fun hn =>
      ⟨lem_reflect_dot_unit _ _ hn, lem_reflect_lsq_unit _ _ hn⟩⟩
    · intro r' hr'
      cases hr'
    · intro _ r' hr'
      cases hr'

/-- Witness for C4 (amended): at a concrete metal with fuzz zero, a concrete
incoming ray and a concrete unit normal, the attenuation is the albedo and
the reflection flips the normal component of the incoming direction. -/
theorem c4_metal_scatter_witness :
    (Metal.scatter ⟨⟨9/10, 9/10, 9/10⟩, 0⟩ ⟨⟨0, 0, 0⟩, ⟨3, -4, 0⟩, 0⟩
      ⟨⟨0, 0, 0⟩, ⟨0, 1, 0⟩, Materials.metal ⟨⟨9/10, 9/10, 9/10⟩, 0⟩, 1, 0, 0, true⟩
      ⟨1, 0, 0⟩).1 = ⟨9/10, 9/10, 9/10⟩ ∧
    (Vec3.reflect ⟨3, -4, 0⟩ ⟨0, 1, 0⟩).dot ⟨0, 1, 0⟩ =
      -((⟨3, -4, 0⟩ : Vec3 ℝ).dot ⟨0, 1, 0⟩) :=
  ⟨(c4_metal_scatter ⟨⟨9/10, 9/10, 9/10⟩, 0⟩ ⟨⟨0, 0, 0⟩, ⟨3, -4, 0⟩, 0⟩
      ⟨⟨0, 0, 0⟩, ⟨0, 1, 0⟩, Materials.metal ⟨⟨9/10, 9/10, 9/10⟩, 0⟩, 1, 0, 0, true⟩
      ⟨1, 0, 0⟩).1,
   ((c4_metal_scatter ⟨⟨9/10, 9/10, 9/10⟩, 0⟩ ⟨⟨0, 0, 0⟩, ⟨3, -4, 0⟩, 0⟩
      ⟨⟨0, 0, 0⟩, ⟨0, 1, 0⟩, Materials.metal ⟨⟨9/10, 9/10, 9/10⟩, 0⟩, 1, 0, 0, true⟩
      ⟨1, 0, 0⟩).2.2.2.2 (by norm_num [Vec3.lengthSquared])).1⟩

/-- Lambertian scattering (materials/lambertian.rs, Lambertian.scatter): the
candidate direction is the normal plus a random unit vector, replaced by the
normal itself when near zero; the attenuation out-parameter is set to the
texture value at the hit's surface coordinates divided by the scatter
probability; a ray is returned when a uniform draw is at most the scatter
probability.  The random unit vector and the uniform draw the source makes
internally are passed as the randUnit and u arguments. -/
def Lambertian.scatter (l : Lambertian) (rIn : Ray ℝ) (hr : HitRecord)
    (randUnit : Vec3 ℝ) (u : ℝ) : Color ℝ × Option (Ray ℝ) :=
  let scatterDir0 := hr.normal.add randUnit
  let scatterDir := if scatterDir0.nearZero then hr.normal else scatterDir0
  let scattered : Ray ℝ := ⟨hr.loc, scatterDir, rIn.tm⟩
  let attenuation := (l.tex.value hr.uTexture hr.vTexture hr.loc).divScalar l.scatterProb
  if u ≤ l.scatterProb then (attenuation, some scattered) else (attenuation, none)

theorem lem_divScalar_pos (c : Color ℝ) {s : ℝ} (hs : 0 < s) :
    (c.divScalar s).r = clamp01 (c.r / s) ∧ (c.divScalar s).g = clamp01 (c.g / s) ∧
    (c.divScalar s).b = clamp01 (c.b / s) := by
  have hns : ¬ s < 0 := not_lt.mpr hs.le
  have hinv : (0 : ℝ) < 1 / s := one_div_pos.mpr hs
  unfold Color.divScalar Color.scalarMul
  simp only []
  rw [if_neg hns, abs_of_pos hs, if_neg (not_lt.mpr hinv.le), abs_of_pos hinv]
  refine ⟨congrArg clamp01 (by ring), congrArg clamp01 (by ring),
    congrArg clamp01 (by ring)⟩

/-- Claim C5: Lambertian::scatter sets the attenuation to the texture value
at the hit's surface coordinates divided componentwise by the scatter
probability (clamped into the unit interval as all Color arithmetic is), and
returns a continuation ray exactly when the uniform draw is at most the
scatter probability; the returned ray starts at the hit point, keeps the
incoming ray's time, and its direction is the normal plus the random unit
vector, falling back to the normal when that sum is near zero. -/
theorem c5_lambertian_scatter (l : Lambertian) (rIn : Ray ℝ) (hr : HitRecord)
    (randUnit : Vec3 ℝ) (u : ℝ) :
    ((l.scatter rIn hr randUnit u).1 =
      (l.tex.value hr.uTexture hr.vTexture hr.loc).divScalar l.scatterProb) ∧
    (0 < l.scatterProb →
      (l.scatter rIn hr randUnit u).1.r =
        clamp01 ((l.tex.value hr.uTexture hr.vTexture hr.loc).r / l.scatterProb) ∧
      (l.scatter rIn hr randUnit u).1.g =
        clamp01 ((l.tex.value hr.uTexture hr.vTexture hr.loc).g / l.scatterProb) ∧
      (l.scatter rIn hr randUnit u).1.b =
        clamp01 ((l.tex.value hr.uTexture hr.vTexture hr.loc).b / l.scatterProb)) ∧
    ((l.scatter rIn hr randUnit u).2.isSome ↔ u ≤ l.scatterProb) ∧
    (∀ r', (l.scatter rIn hr randUnit u).2 = some r' →
      r'.origin = hr.loc ∧ r'.tm = rIn.tm ∧
      r'.direction = if (hr.normal.add randUnit).nearZero then hr.normal
        else hr.normal.add randUnit) := by
  unfold Lambertian.scatter
  simp only []
  split_ifs with hu hnz hnz
  · exact ⟨rfl, fun hp => lem_divScalar_pos _ hp, by simp [hu], fun r' hr' => by
      rw [← Option.some.inj hr']
      exact ⟨rfl, rfl, rfl⟩⟩
  · exact ⟨rfl, fun hp => lem_divScalar_pos _ hp, by simp [hu], fun r' hr' => by
      rw [← Option.some.inj hr']
      exact ⟨rfl, rfl, rfl⟩⟩
  · exact ⟨rfl, fun hp => lem_divScalar_pos _ hp, by simp [hu], fun r' hr' => by
      cases hr'⟩
  · exact ⟨rfl, fun hp => lem_divScalar_pos _ hp, by simp [hu], fun r' hr' => by
      cases hr'⟩

/-- Witness for C5: a concrete solid-color lambertian with scatter
probability one half accepts a draw of one quarter, and the red channel of
its attenuation is the clamped quotient of the texture red channel by the
scatter probability. -/
theorem c5_lambertian_scatter_witness :
    (0 : ℝ) < 1/2 ∧
    ((Lambertian.scatter ⟨Textures.solidColor ⟨2/5, 0, 0⟩, 1/2⟩
        ⟨⟨0, 0, 0⟩, ⟨3, -4, 0⟩, 0⟩
        ⟨⟨0, 0, 0⟩, ⟨0, 1, 0⟩, Materials.lambertian ⟨Textures.solidColor ⟨2/5, 0, 0⟩, 1/2⟩,
          1, 0, 0, true⟩ ⟨1, 0, 0⟩ (1/4)).2.isSome ↔ (1/4 : ℝ) ≤ 1/2) ∧
    (Lambertian.scatter ⟨Textures.solidColor ⟨2/5, 0, 0⟩, 1/2⟩
        ⟨⟨0, 0, 0⟩, ⟨3, -4, 0⟩, 0⟩
        ⟨⟨0, 0, 0⟩, ⟨0, 1, 0⟩, Materials.lambertian ⟨Textures.solidColor ⟨2/5, 0, 0⟩, 1/2⟩,
          1, 0, 0, true⟩ ⟨1, 0, 0⟩ (1/4)).1.r =
      clamp01 ((Textures.value (Textures.solidColor ⟨2/5, 0, 0⟩) 0 0 ⟨0, 0, 0⟩).r / (1/2)) :=
  ⟨by norm_num,
   (c5_lambertian_scatter ⟨Textures.solidColor ⟨2/5, 0, 0⟩, 1/2⟩
      ⟨⟨0, 0, 0⟩, ⟨3, -4, 0⟩, 0⟩
      ⟨⟨0, 0, 0⟩, ⟨0, 1, 0⟩, Materials.lambertian ⟨Textures.solidColor ⟨2/5, 0, 0⟩, 1/2⟩,
        1, 0, 0, true⟩ ⟨1, 0, 0⟩ (1/4)).2.2.1,
   ((c5_lambertian_scatter ⟨Textures.solidColor ⟨2/5, 0, 0⟩, 1/2⟩
      ⟨⟨0, 0, 0⟩, ⟨3, -4, 0⟩, 0⟩
      ⟨⟨0, 0, 0⟩, ⟨0, 1, 0⟩, Materials.lambertian ⟨Textures.solidColor ⟨2/5, 0, 0⟩, 1/2⟩,
        1, 0, 0, true⟩ ⟨1, 0, 0⟩ (1/4)).2.1 (by norm_num)).1⟩

/-- Camera state relevant to construction and its setters (camera/mod.rs,
struct Camera): the constructor parameters together with the look targets
(the source stores each as a static TransformTimeline anchored at the given
point), the up vector and the sample count.  The viewport bookkeeping the
setters refresh (fix_viewport) only recomputes derived extents and performs
no validation, so it is not modelled. -/
structure Camera where
  aspectRatio : ℝ
  imageWidth : ℕ
  frameRate : ℝ
  shutterAngle : ℝ
  threadCount : ℕ
  lookFrom : Vec3 ℝ
  lookAt : Vec3 ℝ
  vup : Vec3 ℝ
  samples : ℕ

/-- Camera constructor (camera/mod.rs, Camera::new): both look targets
default to the origin, the up vector to (0,1,0), the sample count to 10. -/
def Camera.new (aspectRatio : ℝ) (imageWidth : ℕ) (frameRate shutterAngle : ℝ)
    (threadCount : ℕ) : Camera :=
  ⟨aspectRatio, imageWidth, frameRate, shutterAngle, threadCount,
   ⟨0, 0, 0⟩, ⟨0, 0, 0⟩, ⟨0, 1, 0⟩, 10⟩

/-- Look-from setter (camera/mod.rs, Camera::look_from): stores the new
point and refreshes the viewport; it never compares against look_at. -/
def Camera.lookFromSet (cam : Camera) (loc : Vec3 ℝ) : Camera :=
  { cam with lookFrom := loc }

/-- Look-at setter (camera/mod.rs, Camera::look_at): stores the new point
and refreshes the viewport; it never compares against look_from. -/
def Camera.lookAtSet (cam : Camera) (loc : Vec3 ℝ) : Camera :=
  { cam with lookAt := loc }

/-- Checked sample-count setter (camera/mod.rs, Camera::set_samples): the
source asserts a positive sample count and panics otherwise, modelled as
none. -/
def Camera.setSamples (cam : Camera) (s : ℕ) : Option Camera :=
  if 0 < s then some { cam with samples := s } else none

/-- Counterexample for C8: the degenerate-camera condition is not detected
at construction or setter time.  Camera::new itself produces a camera whose
look-from equals its look-at (both default to the origin), and the setters
accept making the two points equal. -/
theorem c8_eager_construction_errors_counterexample :
    ((Camera.new 1 400 24 180 4).lookFrom = (Camera.new 1 400 24 180 4).lookAt) ∧
    ((((Camera.new 1 400 24 180 4).lookFromSet ⟨1, 2, 3⟩).lookAtSet ⟨1, 2, 3⟩).lookFrom =
      (((Camera.new 1 400 24 180 4).lookFromSet ⟨1, 2, 3⟩).lookAtSet ⟨1, 2, 3⟩).lookAt) :=
  ⟨rfl, rfl⟩

/-- Claim C8 (amended): three of the four construction errors are detected
eagerly and abort construction — Sphere::new accepts exactly the nonnegative
radii, Metal::new accepts exactly fuzz factors in the unit interval, and
set_samples accepts exactly positive sample counts — but the degenerate
camera is never checked: the look-from and look-at setters are plain
assignments that accept any points, including equal ones. -/
theorem c8_eager_construction_errors (center : Vec3 ℝ) (radius : ℝ) (mat : Materials)
    (c : Color ℝ) (fuzz : ℝ) (cam : Camera) (s : ℕ) (p q : Vec3 ℝ) :
    ((Sphere.new center radius mat).isSome ↔ 0 ≤ radius) ∧
    ((Metal.new c fuzz).isSome ↔ 0 ≤ fuzz ∧ fuzz ≤ 1) ∧
    ((cam.setSamples s).isSome ↔ 0 < s) ∧
    ((cam.lookFromSet p).lookFrom = p ∧ (cam.lookFromSet p).lookAt = cam.lookAt ∧
     (cam.lookAtSet q).lookAt = q ∧ (cam.lookAtSet q).lookFrom = cam.lookFrom) := by
  refine ⟨?_, ?_, ?_, rfl, rfl, rfl, rfl⟩
  · unfold Sphere.new
    split_ifs with h
    · exact iff_of_true (by simp) h
    · exact iff_of_false (by simp) h
  · unfold Metal.new
    split_ifs with h1 h2
    · exact iff_of_true (by simp) ⟨h2, h1⟩
    · exact iff_of_false (by simp) (fun hc => h2 hc.1)
    · exact iff_of_false (by simp) (fun hc => h1 hc.2)
  · unfold Camera.setSamples
    split_ifs with h
    · exact iff_of_true (by simp) h
    · exact iff_of_false (by simp) h

/-- Witness for C8 (amended): concrete accepted constructions — a unit
sphere and a sample count of 100 on a freshly constructed camera. -/
theorem c8_eager_construction_errors_witness :
    ((Sphere.new ⟨0, 0, 0⟩ 1 (Materials.dielectric ⟨3/2⟩)).isSome ↔ (0 : ℝ) ≤ 1) ∧
    (((Camera.new 1 400 24 180 4).setSamples 100).isSome ↔ 0 < 100) :=
  ⟨(c8_eager_construction_errors ⟨0, 0, 0⟩ 1 (Materials.dielectric ⟨3/2⟩)
      ⟨1/2, 1/2, 1/2⟩ 0 (Camera.new 1 400 24 180 4) 100 ⟨0, 0, 0⟩ ⟨0, 0, 0⟩).1,
   (c8_eager_construction_errors ⟨0, 0, 0⟩ 1 (Materials.dielectric ⟨3/2⟩)
      ⟨1/2, 1/2, 1/2⟩ 0 (Camera.new 1 400 24 180 4) 100 ⟨0, 0, 0⟩ ⟨0, 0, 0⟩).2.2.1⟩

/-- The pixel-dispatch order of Camera::render (camera/mod.rs): rows outer,
columns inner, each job keyed by its (column, row) pair. -/
def rasterOrder (iw ih : ℕ) : List (ℕ × ℕ) :=
  (List.range ih).bind (fun j => (List.range iw).map (fun i => (i, j)))

/-- The keyed result map after the worker threads have completed a schedule
of jobs (camera/cpu_threading.rs, start_thread_cpu): each completion inserts
the deterministically computed color of its own pixel under its own key, in
completion order. -/
def resultMap (pixel : ℕ × ℕ → Color ℝ) (schedule : List (ℕ × ℕ)) :
    (ℕ × ℕ) → Option (Color ℝ) :=
  schedule.foldl (fun m pk => fun q => if q = pk then some (pixel pk) else m q)
    (fun _ => none)

/-- The write-back phase of Camera::render (camera/mod.rs): the output rows
are read back from the keyed result map in raster order, independently of
the order in which results were produced. -/
def serializeResults (iw ih : ℕ) (m : (ℕ × ℕ) → Option (Color ℝ)) :
    List (Option (Color ℝ)) :=
  (rasterOrder iw ih).map m

theorem lem_resultMap_mem (pixel : ℕ × ℕ → Color ℝ) :
    ∀ (schedule : List (ℕ × ℕ)) (acc : (ℕ × ℕ) → Option (Color ℝ)) (p : ℕ × ℕ),
      (acc p = some (pixel p) ∨ p ∈ schedule) →
      schedule.foldl (fun m pk => fun q => if q = pk then some (pixel pk) else m q)
        acc p = some (pixel p) := by
  intro schedule
  induction schedule with
  | nil =>
    intro acc p hp
    rcases hp with h | h
    · exact h
    · cases h
  | cons hd tl ih =>
    intro acc p hp
    simp only [List.foldl_cons]
    apply ih
    by_cases hph : p = hd
    · subst hph
      left
      simp
    · rcases hp with h | h
      · left
        simpa [hph] using h
      · rcases List.mem_cons.mp h with h2 | h2
        · exact absurd h2 hph
        · exact Or.inr h2

/-- Claim C2: the rendered output is independent of thread count and of
work-completion order.  Whenever per-pixel sampling is deterministic, any
two completion schedules that are permutations of the dispatched raster jobs
— in particular those produced by 1, N, or 2N worker threads — leave the
keyed result map serializing to the same output, namely the per-pixel colors
listed in raster order. -/
theorem c2_render_thread_independent (iw ih : ℕ) (pixel : ℕ × ℕ → Color ℝ)
    (s1 s2 : List (ℕ × ℕ)) (h1 : s1.Perm (rasterOrder iw ih))
    (h2 : s2.Perm (rasterOrder iw ih)) :
    serializeResults iw ih (resultMap pixel s1) =
      serializeResults iw ih (resultMap pixel s2) ∧
    serializeResults iw ih (resultMap pixel s1) =
      (rasterOrder iw ih).map (fun p => some (pixel p)) := by
  have key : ∀ (s : List (ℕ × ℕ)), s.Perm (rasterOrder iw ih) →
      serializeResults iw ih (resultMap pixel s) =
        (rasterOrder iw ih).map (fun p => some (pixel p)) := by
    intro s hs
    unfold serializeResults resultMap
    refine List.map_congr_left (fun p hp => ?_)
    exact lem_resultMap_mem pixel s _ p (Or.inr (hs.mem_iff.mpr hp))
  exact ⟨(key s1 h1).trans (key s2 h2).symm, key s1 h1⟩

/-- Witness for C2: on a 2-by-2 image, the forward schedule and the reversed
schedule serialize to the same output. -/
theorem c2_render_thread_independent_witness :
    ((rasterOrder 2 2).reverse).Perm (rasterOrder 2 2) ∧
    serializeResults 2 2 (resultMap (fun p => ⟨(p.1 : ℝ) / 2, (p.2 : ℝ) / 2, 0⟩)
        (rasterOrder 2 2)) =
      serializeResults 2 2 (resultMap (fun p => ⟨(p.1 : ℝ) / 2, (p.2 : ℝ) / 2, 0⟩)
        ((rasterOrder 2 2).reverse)) :=
  ⟨(rasterOrder 2 2).reverse_perm,
   (c2_render_thread_independent 2 2 (fun p => ⟨(p.1 : ℝ) / 2, (p.2 : ℝ) / 2, 0⟩)
      (rasterOrder 2 2) ((rasterOrder 2 2).reverse)
      (List.Perm.refl _) ((rasterOrder 2 2).reverse_perm)).1⟩

end RealModel

end Crucible
